import Mathlib

/-!
# Verification of the sampara moving-statistics core

This file is a shallow embedding, in Lean 4, of the moving-statistics core of
the `sampara` repository:

* `src/buffer/fixed.rs` — the `Fixed` ring buffer;
* `src/stats/mod.rs`    — the `surpasses` ordering policy;
* `src/stats/moving.rs` — the extrema engine (`ExtremaState` / `ExtremaInner`),
  the summage engine (`SummageInner`), and the `Buffered` activation wrapper.

Rust's numeric samples are embedded as `Int` (for the extrema engine, which is
generic over any totally ordered `Sample`) and `ℚ` (for the summage engine,
whose samples are `FloatSample`s; the specification asks for exact
arithmetic).  A sample type with a NaN-like incomparable element (`FSample`)
is used to state the claims about the `surpasses` policy itself.

Stateful Rust code becomes explicit state passing: each `&mut self` method is
a function from the state (plus arguments) to the new state.  Fallible code
(assertions in constructors) returns `Option`.
-/

namespace Sampara

/-! ## The `Fixed` ring buffer (src/buffer/fixed.rs)

`Fixed<B, N>` stores a `head` index and an inner buffer.  The inner buffer is
embedded as a `List α`; the capacity is its length (no operation ever changes
the length of the inner buffer).
-/

/-- The `Fixed` ring buffer: a `head` index and the raw inner buffer
(`src/buffer/fixed.rs`, struct `Fixed`). -/
structure Fixed (α : Type) where
  head : Nat
  buffer : List α
deriving Repr, DecidableEq

namespace Fixed

/-- `Fixed::capacity`: length of the inner buffer. -/
def capacity (b : Fixed α) : Nat := b.buffer.length

/-- `Fixed::push_with_flag`: writes `item` at `head`, advances `head` modulo
the capacity, returns the overwritten element together with a flag reporting
whether the head just cycled back to `0`.  A zero-capacity buffer returns the
pushed item itself, with the flag set, and is left unchanged.

The Rust code reads the evicted slot with `get_unchecked_mut` (undefined
behavior if `head` were out of bounds; valid states keep `head < capacity`);
the unreachable out-of-bounds read is modeled by the `getD` default. -/
def push_with_flag (b : Fixed α) (item : α) : (α × Bool) × Fixed α :=
  if b.capacity = 0 then
    ((item, true), b)
  else
    let was_reset := decide (b.head + 1 ≥ b.capacity)
    let next_head := if b.head + 1 ≥ b.capacity then 0 else b.head + 1
    let old_item := b.buffer.getD b.head item
    ((old_item, was_reset), { head := next_head, buffer := b.buffer.set b.head item })

/-- `Fixed::push`: `push_with_flag` with the flag dropped. -/
def push (b : Fixed α) (item : α) : α × Fixed α :=
  ((b.push_with_flag item).1.1, (b.push_with_flag item).2)

/-- `Fixed::fill`: sets every slot to `item` and resets `head` to `0`. -/
def fill (b : Fixed α) (item : α) : Fixed α :=
  { head := 0, buffer := List.replicate b.buffer.length item }

/-- `Fixed::fill_with`: fills the slots, in order, with successive results of
the (stateful, here: index-passing) closure, and resets `head` to `0`. -/
def fill_with (b : Fixed α) (func : Nat → α) : Fixed α :=
  { head := 0, buffer := (List.range b.buffer.length).map func }

/-- `Fixed::from_offset`: wraps the requested head with `checked_rem`
(division by zero, i.e. a zero-length buffer, falls back to head `0`). -/
def from_offset (buffer : List α) (head : Nat) : Fixed α :=
  { head := if buffer.length = 0 then 0 else head % buffer.length, buffer }

/-- `From<B> for Fixed`: `from_offset` with head `0`. -/
def fromBuffer (buffer : List α) : Fixed α := from_offset buffer 0

/-- `Fixed::into_buffer`: the raw inner buffer. -/
def into_buffer (b : Fixed α) : List α := b.buffer

/-- The logical (oldest → newest) view of the buffer produced by
`Fixed::iter` via `as_slices`: the part from `head` on, then the part
before `head`. -/
def iterList (b : Fixed α) : List α :=
  b.buffer.drop b.head ++ b.buffer.take b.head

@[simp]
theorem length_iterList (b : Fixed α) : b.iterList.length = b.capacity := by
  simp only [iterList, List.length_append, List.length_drop, List.length_take, capacity]
  omega

@[simp]
theorem capacity_fromBuffer (l : List α) : (fromBuffer l).capacity = l.length := rfl

@[simp]
theorem head_fromBuffer (l : List α) : (fromBuffer l).head = 0 := by
  simp [fromBuffer, from_offset]

@[simp]
theorem iterList_fromBuffer (l : List α) : (fromBuffer l).iterList = l := by
  simp [fromBuffer, from_offset, iterList]

@[simp]
theorem capacity_push (b : Fixed α) (x : α) : (b.push x).2.capacity = b.capacity := by
  by_cases h : b.buffer.length = 0 <;>
    simp [push, push_with_flag, h, capacity]

theorem head_push_lt (b : Fixed α) (x : α) (h : 0 < b.capacity) :
    (b.push x).2.head < (b.push x).2.capacity := by
  rw [capacity_push]
  simp only [capacity] at h ⊢
  simp only [push, push_with_flag, capacity]
  rw [if_neg (by omega)]
  by_cases hw : b.head + 1 ≥ b.buffer.length <;> simp [hw] <;> omega

/-- In any valid state (`head < capacity`), a push drops the oldest element of
the logical view and appends the new one at the newest end. -/
theorem iterList_push (b : Fixed α) (x : α) (h : b.head < b.capacity) :
    (b.push x).2.iterList = b.iterList.drop 1 ++ [x] := by
  rcases b with ⟨hd, buf⟩
  simp only [capacity] at h
  have hlen : (buf.take hd).length = hd := by
    simp only [List.length_take]
    omega
  have hset : buf.set hd x = buf.take hd ++ x :: buf.drop (hd + 1) :=
    List.set_eq_take_cons_drop x h
  have hrhs : ((⟨hd, buf⟩ : Fixed α).iterList).drop 1 ++ [x]
      = buf.drop (hd + 1) ++ (buf.take hd ++ [x]) := by
    simp only [iterList]
    rw [List.drop_eq_getElem_cons h, List.cons_append, List.drop_succ_cons,
      List.drop_zero, List.append_assoc]
  rw [hrhs]
  simp only [push, push_with_flag, capacity]
  rw [if_neg (by omega : ¬ buf.length = 0)]
  by_cases hw : hd + 1 ≥ buf.length
  · have hnil : buf.drop (hd + 1) = [] := List.drop_eq_nil_of_le (by omega)
    simp only [if_pos hw, iterList, List.drop_zero, List.take_zero, List.append_nil,
      hset, hnil, List.nil_append]
  · simp only [if_neg hw, iterList, hset]
    have h1 : (buf.take hd ++ x :: buf.drop (hd + 1)).drop (hd + 1)
        = buf.drop (hd + 1) := by
      have hform : hd + 1 = (buf.take hd).length + 1 := by omega
      rw [hform, List.drop_append, List.drop_succ_cons, List.drop_zero]
    have h2 : (buf.take hd ++ x :: buf.drop (hd + 1)).take (hd + 1)
        = buf.take hd ++ [x] := by
      have hform : hd + 1 = (buf.take hd).length + 1 := by omega
      rw [hform, List.take_append, List.take_succ_cons, List.take_zero]
    rw [h1, h2]

/-- In any valid state, the element popped by a push is the oldest element of
the logical view. -/
theorem push_fst (b : Fixed α) (x : α) (h : b.head < b.capacity) :
    (b.push x).1 = b.iterList.getD 0 x := by
  rcases b with ⟨hd, buf⟩
  simp only [capacity] at h
  simp only [push, push_with_flag, capacity, iterList]
  rw [if_neg (by omega : ¬ buf.length = 0)]
  rw [List.drop_eq_getElem_cons h, List.cons_append]
  simp [List.getD_eq_getElem?_getD, List.getElem?_eq_getElem h]

end Fixed

/-! ## The `surpasses` ordering policy (src/stats/mod.rs)

`surpasses::<S, MAX>(candidate, target)` decides whether the candidate should
replace the incumbent extremum.  It is stated over the result of the sample
type's `partial_cmp`.  `FSample` models a float-like sample type with a
NaN-like element that is incomparable to everything (including itself), the
way IEEE floats behave under `PartialOrd`.
-/

/-- A float-like sample: either a NaN-like incomparable element, or an
ordinary (totally ordered) value. -/
inductive FSample where
  | nan : FSample
  | val : Int → FSample
deriving Repr, DecidableEq

/-- `PartialOrd::partial_cmp` on `FSample`: NaN-like elements are incomparable
to everything (including themselves); ordinary values compare normally. -/
def FSample.pcmp : FSample → FSample → Option Ordering
  | .val a, .val b => some (compare a b)
  | _, _ => none

/-- The core of `surpasses` (src/stats/mod.rs, lines 58-67), written over the
result of `partial_cmp`:

* `None` (incomparable) never surpasses;
* `Less` fails to surpass in max-mode, `Greater` fails in min-mode;
* everything else (including `Equal`!) surpasses. -/
def surpassesCmp (MAX : Bool) : Option Ordering → Bool
  | none => false
  | some .lt => if MAX then false else true
  | some .gt => if !MAX then false else true
  | some .eq => true

/-- `surpasses::<FSample, MAX>`. -/
def surpassesF (MAX : Bool) (candidate target : FSample) : Bool :=
  surpassesCmp MAX (candidate.pcmp target)

/-- `surpasses` instantiated at a totally ordered sample type (`Int`): the
instantiation used by the extrema engine below. -/
def surpassesI (MAX : Bool) (candidate target : Int) : Bool :=
  surpassesCmp MAX (some (compare candidate target))

theorem surpassesI_true_iff (MAX : Bool) (c t : Int) :
    surpassesI MAX c t = true ↔ (if MAX then t ≤ c else c ≤ t) := by
  rcases MAX with _ | _ <;>
    rcases lt_trichotomy c t with h | h | h <;>
    simp [surpassesI, surpassesCmp, compare_lt_iff_lt.2, compare_eq_iff_eq.2,
      compare_gt_iff_gt.2, h] <;> omega

theorem surpassesI_refl (MAX : Bool) (x : Int) : surpassesI MAX x x = true := by
  rw [surpassesI_true_iff]
  rcases MAX with _ | _ <;> simp

theorem surpassesI_total (MAX : Bool) (x y : Int)
    (h : surpassesI MAX x y = false) : surpassesI MAX y x = true := by
  rw [surpassesI_true_iff]
  rcases MAX with _ | _ <;>
    [skip; skip] <;>
    · rw [Bool.eq_false_iff] at h
      rw [ne_eq, surpassesI_true_iff] at h
      simp at h ⊢
      omega

theorem surpassesI_trans (MAX : Bool) (x y z : Int)
    (hxy : surpassesI MAX x y = true) (hyz : surpassesI MAX y z = true) :
    surpassesI MAX x z = true := by
  rw [surpassesI_true_iff] at *
  rcases MAX with _ | _ <;> simp at * <;> omega

/-! ### List helpers for the sliding window

Throughout, the window is viewed as a list in oldest → newest order (the order
of `Fixed::iter`).  One `push_pop` step turns the window `w` into
`w.drop 1 ++ [x]`.  `getD` (with an irrelevant default, guarded by explicit
bounds) is used for indexed access.
-/

theorem getD_append_lt {α : Type} (l l' : List α) (i : Nat) (d : α)
    (h : i < l.length) : (l ++ l').getD i d = l.getD i d := by
  simp [List.getD_eq_getElem?_getD, List.getElem?_append_left h]

theorem getD_append_self {α : Type} (l : List α) (x d : α) :
    (l ++ [x]).getD l.length d = x := by
  simp [List.getD_eq_getElem?_getD, List.getElem?_append_right (Nat.le_refl _)]

theorem getD_drop {α : Type} (l : List α) (k i : Nat) (d : α) :
    (l.drop k).getD i d = l.getD (k + i) d := by
  simp [List.getD_eq_getElem?_getD, List.getElem?_drop]

/-- Indexing the slid window below the newest slot reads the old window,
shifted by one. -/
theorem getD_slide_lt {α : Type} (w : List α) (x : α) (i : Nat) (d : α)
    (h : i < w.length - 1) : (w.drop 1 ++ [x]).getD i d = w.getD (i + 1) d := by
  rw [getD_append_lt _ _ _ _ (by simp; omega), getD_drop]
  congr 1
  omega

/-- Indexing the slid window at the newest slot reads the pushed value. -/
theorem getD_slide_last {α : Type} (w : List α) (x : α) (d : α)
    (_h : 1 ≤ w.length) : (w.drop 1 ++ [x]).getD (w.length - 1) d = x := by
  have hlen : (w.drop 1).length = w.length - 1 := by simp
  rw [← hlen, getD_append_self]

theorem mem_slide {α : Type} {w : List α} {x y : α}
    (h : y ∈ w.drop 1 ++ [x]) : y ∈ w.drop 1 ∨ y = x := by
  rcases List.mem_append.1 h with h | h
  · exact Or.inl h
  · exact Or.inr (List.mem_singleton.1 h)

theorem drop_slide {α : Type} (w : List α) (x : α) (k : Nat)
    (h : k ≤ w.length - 1) : (w.drop 1 ++ [x]).drop k = w.drop (k + 1) ++ [x] := by
  rw [List.drop_append_of_le_length (by simp; omega), List.drop_drop]
  rw [Nat.add_comm]

/-! ## The extrema engine, per channel (src/stats/moving.rs)

`ExtremaState<S, N, MAX>` keeps, for each of the `N` channels, a frontier
`(value, position)` pair and an optional horizon `(value, offset)` pair, plus
a shared `cursor_pos`.  The per-channel loop bodies of `push` and `push_pop`
touch only one channel's state, the matching channel of the input frame and
the matching channel of the window, so they are embedded as per-channel step
functions (`chPush`, `chPushPop`); the lockstep loop over all channels is
rebuilt on top of them further below.
-/

/-- One channel's slice of `ExtremaState`: the frontier extremum and
position, and the optional horizon extremum and offset (an offset relative to
the slot just after the frontier). -/
structure ChExtrema where
  f_ext : Int
  f_pos : Nat
  horizon : Option (Int × Nat)
deriving Repr, DecidableEq

/-- The per-channel body of `ExtremaState::push` (append-only update; the
cursor has already been incremented, and is passed in).  Cases `[EF]`
(`set_frontier`), `[EH]` (`set_horizon`), `[EN]` (no change), `[EI]`
(`set_horizon_init`). -/
def chPush (MAX : Bool) (c : ChExtrema) (x : Int) (cursor_pos : Nat) : ChExtrema :=
  if surpassesI MAX x c.f_ext then
    ⟨x, cursor_pos, none⟩
  else
    match c.horizon with
    | some (h_ext, _h_pos) =>
      if surpassesI MAX x h_ext then
        { c with horizon := some (x, cursor_pos - c.f_pos - 1) }
      else
        c
    | none =>
      { c with horizon := some (x, cursor_pos - c.f_pos - 1) }

/-- The discovery-loop step of the promotion rescan in
`ExtremaState::push_pop`, case `[PFN]`: the accumulator starts at `none` and
is replaced whenever the scanned value surpasses it. -/
def scanStep (MAX : Bool) (acc : Option (Int × Nat)) (p : Nat × Int) :
    Option (Int × Nat) :=
  match acc with
  | some (d, dp) => if surpassesI MAX p.2 d then some (p.2, p.1) else some (d, dp)
  | none => some (p.2, p.1)

/-- The promotion rescan: fold the discovery step over the enumerated
remainder of the window (the frames strictly after the new frontier's
position). -/
def scanHorizon (MAX : Bool) (ys : List Int) : Option (Int × Nat) :=
  ys.enum.foldl (scanStep MAX) none

/-- The per-channel body of `ExtremaState::push_pop` (steady-state update;
the cursor is *not* incremented by `push_pop` and is passed in; `w` is the
per-channel view of the window *after* the new frame has been pushed).

The eight cases `[PFF] [PFH] [PFN] [PFI] [PNF] [PNH] [PNN] [PNI]` of the
source; the `f_pos` decrement for a non-evicted frontier is inlined as
`c.f_pos - 1` in the branches where it is visible. -/
def chPushPop (MAX : Bool) (c : ChExtrema) (x : Int) (cursor_pos : Nat)
    (w : List Int) : ChExtrema :=
  if surpassesI MAX x c.f_ext then
    -- Cases [PFF] and [PNF]: set_frontier.
    ⟨x, cursor_pos, none⟩
  else
    match c.horizon with
    | some (h_ext, h_pos) =>
      if c.f_pos = 0 then
        if surpassesI MAX x h_ext then
          -- Case [PFH]: the incoming value snipes the promotion.
          ⟨x, cursor_pos, none⟩
        else
          -- Case [PFN]: promote the horizon to frontier, then rescan the
          -- window after the new frontier position for a new horizon.
          ⟨h_ext, h_pos, scanHorizon MAX (w.drop (h_pos + 1))⟩
      else
        if surpassesI MAX x h_ext then
          -- Case [PNH]: set_horizon at the decremented frontier position.
          ⟨c.f_ext, c.f_pos - 1, some (x, cursor_pos - (c.f_pos - 1) - 1)⟩
        else
          -- Case [PNN]: no change (besides the frontier position decrement).
          ⟨c.f_ext, c.f_pos - 1, some (h_ext, h_pos)⟩
    | none =>
      if c.f_pos = 0 then
        -- Case [PFI]: degenerate window; set_frontier.
        ⟨x, cursor_pos, none⟩
      else
        -- Case [PNI]: set_horizon_init at the decremented frontier position.
        ⟨c.f_ext, c.f_pos - 1, some (x, cursor_pos - (c.f_pos - 1) - 1)⟩

/-- The frontier/horizon invariant for one channel over the window `w`
(oldest → newest), which is also the seen-so-far prefix during the
append-only construction phase:

* the frontier position indexes the window and holds the frontier value,
  which is the true extremum of the whole window;
* the horizon, when present, indexes the window strictly after the frontier
  and holds the true extremum of that suffix; when absent, the frontier sits
  at the newest slot (so the suffix is empty). -/
def ChInv (MAX : Bool) (c : ChExtrema) (w : List Int) : Prop :=
  c.f_pos < w.length ∧
  w.getD c.f_pos 0 = c.f_ext ∧
  (∀ y ∈ w, surpassesI MAX c.f_ext y = true) ∧
  (match c.horizon with
   | none => c.f_pos = w.length - 1
   | some (h_ext, h_pos) =>
       c.f_pos + 1 + h_pos < w.length ∧
       w.getD (c.f_pos + 1 + h_pos) 0 = h_ext ∧
       ∀ y ∈ w.drop (c.f_pos + 1), surpassesI MAX h_ext y = true)

/-- The genesis state (`From<[S; N]> for ExtremaState`) satisfies the
invariant over the single seen frame. -/
theorem chGenesis_inv (MAX : Bool) (x : Int) :
    ChInv MAX ⟨x, 0, none⟩ [x] := by
  refine ⟨by simp, by simp, ?_, by simp⟩
  intro y hy
  rw [List.mem_singleton.1 hy]
  exact surpassesI_refl MAX x

/-- Invariant of the promotion rescan fold, over an enumeration starting at
`n` with a non-empty accumulator: the fold yields some pair whose value
surpasses the accumulator and everything scanned, located either at the
accumulator's slot or inside the scanned list. -/
theorem scanFold_spec (MAX : Bool) (ys : List Int) :
    ∀ (n : Nat) (d : Int) (dp : Nat),
    ∃ e p, (ys.enumFrom n).foldl (scanStep MAX) (some (d, dp)) = some (e, p) ∧
      ((e = d ∧ p = dp) ∨
        (n ≤ p ∧ p < n + ys.length ∧ ys.getD (p - n) 0 = e)) ∧
      surpassesI MAX e d = true ∧
      (∀ y ∈ ys, surpassesI MAX e y = true) := by
  induction ys with
  | nil =>
    intro n d dp
    exact ⟨d, dp, rfl, Or.inl ⟨rfl, rfl⟩, surpassesI_refl MAX d, by simp⟩
  | cons y ys ih =>
    intro n d dp
    rw [List.enumFrom_cons, List.foldl_cons]
    by_cases hyd : surpassesI MAX y d = true
    · obtain ⟨e, p, heq, hloc, hed, hall⟩ := ih (n + 1) y n
      refine ⟨e, p, ?_, ?_, ?_, ?_⟩
      · rw [← heq]
        simp [scanStep, hyd]
      · rcases hloc with ⟨rfl, rfl⟩ | ⟨h1, h2, h3⟩
        · refine Or.inr ⟨Nat.le_refl _, by simp, ?_⟩
          simp
        · refine Or.inr ⟨by omega, by simp; omega, ?_⟩
          have hsub : p - n = (p - (n + 1)) + 1 := by omega
          rw [hsub, List.getD_cons_succ]
          exact h3
      · exact surpassesI_trans MAX e y d hed hyd
      · intro z hz
        rcases List.mem_cons.1 hz with rfl | hz
        · exact hed
        · exact hall z hz
    · obtain ⟨e, p, heq, hloc, hed, hall⟩ := ih (n + 1) d dp
      refine ⟨e, p, ?_, ?_, ?_, ?_⟩
      · rw [← heq]
        simp [scanStep, hyd]
      · rcases hloc with ⟨rfl, rfl⟩ | ⟨h1, h2, h3⟩
        · exact Or.inl ⟨rfl, rfl⟩
        · refine Or.inr ⟨by omega, by simp; omega, ?_⟩
          have hsub : p - n = (p - (n + 1)) + 1 := by omega
          rw [hsub, List.getD_cons_succ]
          exact h3
      · exact hed
      · intro z hz
        rcases List.mem_cons.1 hz with rfl | hz
        · have hdy : surpassesI MAX d z = true := surpassesI_total MAX z d (by simpa using hyd)
          exact surpassesI_trans MAX e d z hed hdy
        · exact hall z hz

/-- The promotion rescan returns `none` exactly on the empty remainder. -/
theorem scanHorizon_eq_none_iff (MAX : Bool) (ys : List Int) :
    scanHorizon MAX ys = none ↔ ys = [] := by
  cases ys with
  | nil => simp [scanHorizon]
  | cons y ys =>
    simp only [scanHorizon, List.enum_cons, List.foldl_cons]
    obtain ⟨e, p, heq, -, -, -⟩ := scanFold_spec MAX ys 1 y 0
    have hstep : scanStep MAX none (0, y) = some (y, 0) := rfl
    rw [hstep, heq]
    simp

/-- On a non-empty remainder, the promotion rescan returns a located true
extremum of the remainder. -/
theorem scanHorizon_some_spec (MAX : Bool) (ys : List Int) (e : Int) (p : Nat)
    (h : scanHorizon MAX ys = some (e, p)) :
    p < ys.length ∧ ys.getD p 0 = e ∧ ∀ y ∈ ys, surpassesI MAX e y = true := by
  cases ys with
  | nil => simp [scanHorizon] at h
  | cons y ys =>
    simp only [scanHorizon, List.enum_cons, List.foldl_cons] at h
    obtain ⟨e', p', heq, hloc, hed, hall⟩ := scanFold_spec MAX ys 1 y 0
    have hstep : scanStep MAX none (0, y) = some (y, 0) := rfl
    rw [hstep, heq] at h
    rw [Option.some.injEq, Prod.mk.injEq] at h
    obtain ⟨rfl, rfl⟩ := h
    refine ⟨?_, ?_, ?_⟩
    · rcases hloc with ⟨-, rfl⟩ | ⟨hp1, hp2, -⟩
      · simp
      · simp
        omega
    · rcases hloc with ⟨rfl, rfl⟩ | ⟨hp1, hp2, h3⟩
      · simp
      · have hsub : p' = (p' - 1) + 1 := by omega
        rw [hsub, List.getD_cons_succ]
        simpa using h3
    · intro z hz
      rcases List.mem_cons.1 hz with rfl | hz
      · exact hed
      · exact hall z hz

/-- The append-only update (`ExtremaState::push`, per channel) preserves the
frontier/horizon invariant: pushing `x` onto seen-prefix `w` (the cursor,
already incremented, equals `w.length`) yields the invariant over
`w ++ [x]`. -/
theorem chPush_inv (MAX : Bool) (c : ChExtrema) (w : List Int) (x : Int)
    (hw : 1 ≤ w.length) (hinv : ChInv MAX c w) :
    ChInv MAX (chPush MAX c x w.length) (w ++ [x]) := by
  unfold ChInv at hinv
  obtain ⟨hfp, hfval, hfall, hhor⟩ := hinv
  unfold chPush
  by_cases hsx : surpassesI MAX x c.f_ext = true
  · -- Case [EF].
    rw [if_pos hsx]
    unfold ChInv
    refine ⟨by simp, ?_, ?_, ?_⟩
    · dsimp only
      exact getD_append_self w x 0
    · dsimp only
      intro y hy
      rcases List.mem_append.1 hy with hy | hy
      · exact surpassesI_trans MAX x c.f_ext y hsx (hfall y hy)
      · rw [List.mem_singleton.1 hy]
        exact surpassesI_refl MAX x
    · simp
  · rw [if_neg hsx]
    have hsxf : surpassesI MAX x c.f_ext = false := Bool.eq_false_iff.mpr hsx
    have hfx : surpassesI MAX c.f_ext x = true := surpassesI_total MAX x c.f_ext hsxf
    have hfrontier2 : (w ++ [x]).getD c.f_pos 0 = c.f_ext := by
      rw [getD_append_lt w [x] c.f_pos 0 hfp]
      exact hfval
    have hfrontier3 : ∀ y ∈ w ++ [x], surpassesI MAX c.f_ext y = true := by
      intro y hy
      rcases List.mem_append.1 hy with hy | hy
      · exact hfall y hy
      · rw [List.mem_singleton.1 hy]
        exact hfx
    rcases hh : c.horizon with _ | ⟨h_ext, h_pos⟩
    · -- Case [EI].
      rw [hh] at hhor
      dsimp only at hhor
      dsimp only
      unfold ChInv
      refine ⟨by simp; omega, hfrontier2, hfrontier3, ?_⟩
      dsimp only
      refine ⟨by simp; omega, ?_, ?_⟩
      · rw [show c.f_pos + 1 + (w.length - c.f_pos - 1) = w.length by omega]
        exact getD_append_self w x 0
      · intro y hy
        rw [show c.f_pos + 1 = w.length by omega] at hy
        rw [show w.length = w.length + 0 by omega, List.drop_append] at hy
        have hyx : y = x := by simpa using hy
        rw [hyx]
        exact surpassesI_refl MAX x
    · rw [hh] at hhor
      dsimp only at hhor
      obtain ⟨hhp, hhval, hhall⟩ := hhor
      dsimp only
      have hsuffix : (w ++ [x]).drop (c.f_pos + 1) = w.drop (c.f_pos + 1) ++ [x] :=
        List.drop_append_of_le_length (by omega)
      by_cases hsh : surpassesI MAX x h_ext = true
      · -- Case [EH].
        rw [if_pos hsh]
        unfold ChInv
        refine ⟨by simp; omega, hfrontier2, hfrontier3, ?_⟩
        dsimp only
        refine ⟨by simp; omega, ?_, ?_⟩
        · rw [show c.f_pos + 1 + (w.length - c.f_pos - 1) = w.length by omega]
          exact getD_append_self w x 0
        · intro y hy
          rw [hsuffix] at hy
          rcases List.mem_append.1 hy with hy | hy
          · exact surpassesI_trans MAX x h_ext y hsh (hhall y hy)
          · rw [List.mem_singleton.1 hy]
            exact surpassesI_refl MAX x
      · -- Case [EN].
        rw [if_neg hsh]
        have hshf : surpassesI MAX x h_ext = false := Bool.eq_false_iff.mpr hsh
        have hhx : surpassesI MAX h_ext x = true := surpassesI_total MAX x h_ext hshf
        unfold ChInv
        refine ⟨by simp; omega, hfrontier2, hfrontier3, ?_⟩
        rw [hh]
        refine ⟨by simp; omega, ?_, ?_⟩
        · rw [getD_append_lt w [x] _ 0 hhp]
          exact hhval
        · intro y hy
          rw [hsuffix] at hy
          rcases List.mem_append.1 hy with hy | hy
          · exact hhall y hy
          · rw [List.mem_singleton.1 hy]
            exact hhx

/-- The steady-state update (`ExtremaState::push_pop`, per channel) preserves
the frontier/horizon invariant: in steady state the cursor is pinned at
`w.length - 1`, the window slides from `w` to `w.drop 1 ++ [x]`, and the
per-channel state keeps the invariant over the slid window. -/
theorem chPushPop_inv (MAX : Bool) (c : ChExtrema) (w : List Int) (x : Int)
    (hw : 1 ≤ w.length) (hinv : ChInv MAX c w) :
    ChInv MAX (chPushPop MAX c x (w.length - 1) (w.drop 1 ++ [x]))
      (w.drop 1 ++ [x]) := by
  unfold ChInv at hinv
  obtain ⟨hfp, hfval, hfall, hhor⟩ := hinv
  have hlen' : (w.drop 1 ++ [x]).length = w.length := by
    simp
    omega
  unfold chPushPop
  by_cases hsx : surpassesI MAX x c.f_ext = true
  · -- Cases [PFF] / [PNF].
    rw [if_pos hsx]
    unfold ChInv
    refine ⟨?_, ?_, ?_, ?_⟩
    · dsimp only
      rw [hlen']
      omega
    · dsimp only
      exact getD_slide_last w x 0 hw
    · dsimp only
      intro y hy
      rcases mem_slide hy with hy | hyx
      · exact surpassesI_trans MAX x c.f_ext y hsx (hfall y (List.mem_of_mem_drop hy))
      · rw [hyx]
        exact surpassesI_refl MAX x
    · dsimp only
      rw [hlen']
  · rw [if_neg hsx]
    have hsxf : surpassesI MAX x c.f_ext = false := Bool.eq_false_iff.mpr hsx
    have hfx : surpassesI MAX c.f_ext x = true := surpassesI_total MAX x c.f_ext hsxf
    rcases hh : c.horizon with _ | ⟨h_ext, h_pos⟩
    · rw [hh] at hhor
      dsimp only at hhor
      dsimp only
      by_cases hfp0 : c.f_pos = 0
      · -- Case [PFI]: degenerate window of length 1.
        rw [if_pos hfp0]
        have hC1 : w.length = 1 := by omega
        have hwnil : w.drop 1 = [] := List.drop_eq_nil_of_le (by omega)
        simpa [hwnil, hC1] using chGenesis_inv MAX x
      · -- Case [PNI].
        rw [if_neg hfp0]
        unfold ChInv
        refine ⟨?_, ?_, ?_, ?_⟩
        · dsimp only
          rw [hlen']
          omega
        · dsimp only
          rw [getD_slide_lt w x _ 0 (by omega), show c.f_pos - 1 + 1 = c.f_pos by omega]
          exact hfval
        · dsimp only
          intro y hy
          rcases mem_slide hy with hy | hyx
          · exact hfall y (List.mem_of_mem_drop hy)
          · rw [hyx]
            exact hfx
        · dsimp only
          refine ⟨?_, ?_, ?_⟩
          · rw [hlen']
            omega
          · rw [show c.f_pos - 1 + 1 + (w.length - 1 - (c.f_pos - 1) - 1) = w.length - 1
              by omega]
            exact getD_slide_last w x 0 hw
          · intro y hy
            rw [show c.f_pos - 1 + 1 = w.length - 1 by omega] at hy
            rw [drop_slide w x _ (Nat.le_refl _)] at hy
            rw [show w.length - 1 + 1 = w.length by omega, List.drop_length] at hy
            have hyx : y = x := by simpa using hy
            rw [hyx]
            exact surpassesI_refl MAX x
    · rw [hh] at hhor
      dsimp only at hhor
      obtain ⟨hhp, hhval, hhall⟩ := hhor
      dsimp only
      by_cases hfp0 : c.f_pos = 0
      · rw [if_pos hfp0]
        by_cases hsh : surpassesI MAX x h_ext = true
        · -- Case [PFH].
          rw [if_pos hsh]
          unfold ChInv
          refine ⟨?_, ?_, ?_, ?_⟩
          · dsimp only
            rw [hlen']
            omega
          · dsimp only
            exact getD_slide_last w x 0 hw
          · dsimp only
            intro y hy
            rcases mem_slide hy with hy | hyx
            · have hy' : y ∈ w.drop (c.f_pos + 1) := by simpa [hfp0] using hy
              exact surpassesI_trans MAX x h_ext y hsh (hhall y hy')
            · rw [hyx]
              exact surpassesI_refl MAX x
          · dsimp only
            rw [hlen']
        · -- Case [PFN]: promotion plus rescan.
          rw [if_neg hsh]
          have hshf : surpassesI MAX x h_ext = false := Bool.eq_false_iff.mpr hsh
          have hhx : surpassesI MAX h_ext x = true := surpassesI_total MAX x h_ext hshf
          have hhpB : h_pos < w.length - 1 := by omega
          have hval' : (w.drop 1 ++ [x]).getD h_pos 0 = h_ext := by
            rw [getD_slide_lt w x h_pos 0 hhpB,
              show h_pos + 1 = c.f_pos + 1 + h_pos by omega]
            exact hhval
          have hallw' : ∀ y ∈ w.drop 1 ++ [x], surpassesI MAX h_ext y = true := by
            intro y hy
            rcases mem_slide hy with hy | hyx
            · have hy' : y ∈ w.drop (c.f_pos + 1) := by simpa [hfp0] using hy
              exact hhall y hy'
            · rw [hyx]
              exact hhx
          rcases hscan : scanHorizon MAX ((w.drop 1 ++ [x]).drop (h_pos + 1))
            with _ | ⟨e, p⟩
          · exfalso
            have hnil := (scanHorizon_eq_none_iff MAX _).1 hscan
            rw [drop_slide w x (h_pos + 1) (by omega)] at hnil
            simp at hnil
          · obtain ⟨hp1, hp2, hp3⟩ := scanHorizon_some_spec MAX _ e p hscan
            unfold ChInv
            refine ⟨?_, ?_, ?_, ?_⟩
            · dsimp only
              rw [hlen']
              omega
            · dsimp only
              exact hval'
            · dsimp only
              exact hallw'
            · dsimp only
              have hp1' : p < w.length - (h_pos + 1) := by
                rw [List.length_drop, hlen'] at hp1
                omega
              refine ⟨?_, ?_, ?_⟩
              · rw [hlen']
                omega
              · rw [← getD_drop]
                exact hp2
              · exact hp3
      · rw [if_neg hfp0]
        by_cases hsh : surpassesI MAX x h_ext = true
        · -- Case [PNH].
          rw [if_pos hsh]
          unfold ChInv
          refine ⟨?_, ?_, ?_, ?_⟩
          · dsimp only
            rw [hlen']
            omega
          · dsimp only
            rw [getD_slide_lt w x _ 0 (by omega), show c.f_pos - 1 + 1 = c.f_pos by omega]
            exact hfval
          · dsimp only
            intro y hy
            rcases mem_slide hy with hy | rfl
            · exact hfall y (List.mem_of_mem_drop hy)
            · exact hfx
          · dsimp only
            refine ⟨?_, ?_, ?_⟩
            · rw [hlen']
              omega
            · rw [show c.f_pos - 1 + 1 + (w.length - 1 - (c.f_pos - 1) - 1) = w.length - 1
                by omega]
              exact getD_slide_last w x 0 hw
            · intro y hy
              rw [show c.f_pos - 1 + 1 = c.f_pos by omega] at hy
              rw [drop_slide w x c.f_pos (by omega)] at hy
              rcases List.mem_append.1 hy with hy | hy
              · exact surpassesI_trans MAX x h_ext y hsh (hhall y hy)
              · rw [List.mem_singleton.1 hy]
                exact surpassesI_refl MAX x
        · -- Case [PNN].
          rw [if_neg hsh]
          have hshf : surpassesI MAX x h_ext = false := Bool.eq_false_iff.mpr hsh
          have hhx : surpassesI MAX h_ext x = true := surpassesI_total MAX x h_ext hshf
          unfold ChInv
          refine ⟨?_, ?_, ?_, ?_⟩
          · dsimp only
            rw [hlen']
            omega
          · dsimp only
            rw [getD_slide_lt w x _ 0 (by omega), show c.f_pos - 1 + 1 = c.f_pos by omega]
            exact hfval
          · dsimp only
            intro y hy
            rcases mem_slide hy with hy | rfl
            · exact hfall y (List.mem_of_mem_drop hy)
            · exact hfx
          · dsimp only
            refine ⟨?_, ?_, ?_⟩
            · rw [hlen']
              omega
            · rw [getD_slide_lt w x _ 0 (by omega),
                show c.f_pos - 1 + 1 + h_pos + 1 = c.f_pos + 1 + h_pos by omega]
              exact hhval
            · intro y hy
              rw [show c.f_pos - 1 + 1 = c.f_pos by omega] at hy
              rw [drop_slide w x c.f_pos (by omega)] at hy
              rcases List.mem_append.1 hy with hy | hy
              · exact hhall y hy
              · rw [List.mem_singleton.1 hy]
                exact hhx

/-! ## The multichannel extrema state and engine

`ExtremaState::push` and `ExtremaState::push_pop` process all `N` channels in
lockstep with zipped iterators (`push_pop` additionally carries the running
channel index, used to project the window frames onto the channel).  The
loops below mirror that zipped iteration. -/

/-- Projection of a frame list onto one channel
(`frame.channel(ch).expect(..)`; valid frames always have `ch < N`). -/
def column (ch : Nat) (w : List (List Int)) : List Int :=
  w.map (fun fr => fr.getD ch 0)

@[simp]
theorem length_column (ch : Nat) (w : List (List Int)) :
    (column ch w).length = w.length := by
  simp [column]

theorem column_append (ch : Nat) (v w : List (List Int)) :
    column ch (v ++ w) = column ch v ++ column ch w := by
  simp [column]

theorem column_slide (ch : Nat) (w : List (List Int)) (x : List Int) :
    column ch (w.drop 1 ++ [x]) = (column ch w).drop 1 ++ [x.getD ch 0] := by
  simp [column, List.map_drop]

/-- `getD` through `map`, inside bounds. -/
theorem getD_map_lt {α β : Type} (f : α → β) (l : List α) (i : Nat) (d : β)
    (d' : α) (h : i < l.length) : (l.map f).getD i d = f (l.getD i d') := by
  simp [List.getD_eq_getElem?_getD, List.getElem?_map,
    List.getElem?_eq_getElem h]

/-- The zipped per-channel loop of `ExtremaState::push`. -/
def pushChannels (MAX : Bool) (cursor_pos : Nat) :
    List ChExtrema → List Int → List ChExtrema
  | [], _ => []
  | _ :: _, [] => []
  | c :: cs, x :: xs => chPush MAX c x cursor_pos :: pushChannels MAX cursor_pos cs xs

/-- The zipped per-channel loop of `ExtremaState::push_pop`, carrying the
running channel index `ch` used to project the window. -/
def pushPopChannels (MAX : Bool) (cursor_pos : Nat) (w : List (List Int)) :
    Nat → List ChExtrema → List Int → List ChExtrema
  | _, [], _ => []
  | _, _ :: _, [] => []
  | ch, c :: cs, x :: xs =>
      chPushPop MAX c x cursor_pos (column ch w) ::
        pushPopChannels MAX cursor_pos w (ch + 1) cs xs

theorem length_pushChannels (MAX : Bool) (cp : Nat) :
    ∀ (cs : List ChExtrema) (xs : List Int),
      (pushChannels MAX cp cs xs).length = min cs.length xs.length := by
  intro cs
  induction cs with
  | nil => intro xs; simp [pushChannels]
  | cons c cs ih =>
    intro xs
    cases xs with
    | nil => simp [pushChannels]
    | cons x xs =>
      simp [pushChannels, ih xs]
      omega

theorem getD_pushChannels (MAX : Bool) (cp : Nat) (d : ChExtrema) :
    ∀ (cs : List ChExtrema) (xs : List Int) (i : Nat),
      i < cs.length → i < xs.length →
      (pushChannels MAX cp cs xs).getD i d
        = chPush MAX (cs.getD i d) (xs.getD i 0) cp := by
  intro cs
  induction cs with
  | nil => intro xs i h1 _; simp at h1
  | cons c cs ih =>
    intro xs i h1 h2
    cases xs with
    | nil => simp at h2
    | cons x xs =>
      cases i with
      | zero => simp [pushChannels]
      | succ i =>
        simp only [pushChannels, List.getD_cons_succ]
        exact ih xs i (by simpa using h1) (by simpa using h2)

theorem length_pushPopChannels (MAX : Bool) (cp : Nat) (w : List (List Int)) :
    ∀ (ch : Nat) (cs : List ChExtrema) (xs : List Int),
      (pushPopChannels MAX cp w ch cs xs).length = min cs.length xs.length := by
  intro ch cs
  induction cs generalizing ch with
  | nil => intro xs; simp [pushPopChannels]
  | cons c cs ih =>
    intro xs
    cases xs with
    | nil => simp [pushPopChannels]
    | cons x xs =>
      simp [pushPopChannels, ih (ch + 1) xs]
      omega

theorem getD_pushPopChannels (MAX : Bool) (cp : Nat) (w : List (List Int))
    (d : ChExtrema) :
    ∀ (ch : Nat) (cs : List ChExtrema) (xs : List Int) (i : Nat),
      i < cs.length → i < xs.length →
      (pushPopChannels MAX cp w ch cs xs).getD i d
        = chPushPop MAX (cs.getD i d) (xs.getD i 0) cp (column (ch + i) w) := by
  intro ch cs
  induction cs generalizing ch with
  | nil => intro xs i h1 _; simp at h1
  | cons c cs ih =>
    intro xs i h1 h2
    cases xs with
    | nil => simp at h2
    | cons x xs =>
      cases i with
      | zero => simp [pushPopChannels]
      | succ i =>
        simp only [pushPopChannels, List.getD_cons_succ]
        rw [ih (ch + 1) xs i (by simpa using h1) (by simpa using h2)]
        congr 2
        omega

/-- `ExtremaState<S, N, MAX>`: the per-channel frontier/horizon pairs plus a
shared, monotonically increasing cursor. -/
structure ExtremaState where
  channels : List ChExtrema
  cursor_pos : Nat
deriving Repr, DecidableEq

/-- `ExtremaState::push`: increment the cursor, then update every channel in
lockstep with the incremented cursor. -/
def ExtremaState.push (MAX : Bool) (s : ExtremaState) (xs : List Int) :
    ExtremaState :=
  { channels := pushChannels MAX (s.cursor_pos + 1) s.channels xs,
    cursor_pos := s.cursor_pos + 1 }

/-- `ExtremaState::push_pop`: the cursor is *not* incremented; every channel
is updated in lockstep against its projection of the (already pushed)
window. -/
def ExtremaState.push_pop (MAX : Bool) (s : ExtremaState) (xs : List Int)
    (w : List (List Int)) : ExtremaState :=
  { channels := pushPopChannels MAX s.cursor_pos w 0 s.channels xs,
    cursor_pos := s.cursor_pos }

/-- `From<[S; N]> for ExtremaState`: the genesis state from the first frame:
every channel's frontier is that frame's value at position 0; no horizons;
cursor 0. -/
def ExtremaState.genesis (xs : List Int) : ExtremaState :=
  { channels := xs.map (fun x => ⟨x, 0, none⟩), cursor_pos := 0 }

/-- `ExtremaInner<B, N, MAX>`: the ring-buffer window plus the extrema
state. -/
structure ExtremaInner where
  window : Fixed (List Int)
  ext_state : ExtremaState
deriving Repr, DecidableEq

namespace ExtremaInner

/-- `ExtremaInner::__from`: genesis from the first frame of the buffer, then
fold the append-only `push` over the remaining frames; the window is the
buffer itself, with head 0.  The `[]` case is unreachable: the public
constructor asserts a non-empty buffer before calling this
(`unwrap_unchecked` in the source). -/
def __from (MAX : Bool) (buffer : List (List Int)) : ExtremaInner :=
  match buffer with
  | [] => ⟨Fixed.fromBuffer [], ⟨[], 0⟩⟩
  | xs :: rest =>
      { window := Fixed.fromBuffer (xs :: rest),
        ext_state := rest.foldl (fun s fr => s.push MAX fr) (ExtremaState.genesis xs) }

/-- The public `From::from` of the generated calculators: asserts the buffer
is non-empty (`EMPTY_BUFFER_MSG`), then delegates to `__from`.  The panic is
modeled as `none`. -/
def from? (MAX : Bool) (buffer : List (List Int)) : Option ExtremaInner :=
  if 0 < buffer.length then some (__from MAX buffer) else none

/-- `ExtremaInner::__fill`: fill the window with one frame; all frontiers are
that frame's channel values pinned at the last position, horizons cleared,
cursor pinned at the last position. -/
def __fill (e : ExtremaInner) (fill_val : List Int) : ExtremaInner :=
  let f_pos := e.window.capacity - 1
  { window := e.window.fill fill_val,
    ext_state :=
      { channels := fill_val.map (fun x => ⟨x, f_pos, none⟩),
        cursor_pos := f_pos } }

/-- `ExtremaInner::__reset`: `__fill` with the equilibrium frame (all-zero
over `N` channels). -/
def __reset (N : Nat) (e : ExtremaInner) : ExtremaInner :=
  e.__fill (List.replicate N 0)

/-- `ExtremaInner::__from_empty`: wrap the buffer (its contents are dummy
state) and reset. -/
def __from_empty (N : Nat) (buffer : List (List Int)) : ExtremaInner :=
  ExtremaInner.__reset N ⟨Fixed.fromBuffer buffer, ⟨[], 0⟩⟩

/-- The public `from_empty` of the generated calculators: asserts the buffer
is non-empty, then delegates to `__from_empty`. -/
def fromEmpty? (N : Nat) (buffer : List (List Int)) : Option ExtremaInner :=
  if 0 < buffer.length then some (__from_empty N buffer) else none

/-- `ExtremaInner::__advance`: push the input frame into the window, then
`push_pop` the state against the updated window's logical view. -/
def __advance (MAX : Bool) (e : ExtremaInner) (input : List Int) : ExtremaInner :=
  let w' := (e.window.push input).2
  { window := w', ext_state := e.ext_state.push_pop MAX input w'.iterList }

/-- `ExtremaInner::__current`: the per-channel frontier values. -/
def __current (e : ExtremaInner) : List Int :=
  e.ext_state.channels.map (fun c => c.f_ext)

/-- `ExtremaInner::__process`: advance, then read. -/
def __process (MAX : Bool) (e : ExtremaInner) (input : List Int) :
    List Int × ExtremaInner :=
  ((e.__advance MAX input).__current, e.__advance MAX input)

end ExtremaInner

/-- Folding `__advance` over a feed of frames. -/
def advanceFold (MAX : Bool) (e : ExtremaInner) (feed : List (List Int)) :
    ExtremaInner :=
  feed.foldl (fun e fr => e.__advance MAX fr) e

/-- The engine-level invariant: a valid ring buffer of `N`-channel frames,
one channel state per channel, the cursor pinned at `capacity - 1`, and the
per-channel frontier/horizon invariant over each channel's projection of the
window. -/
def EngInv (MAX : Bool) (N : Nat) (e : ExtremaInner) : Prop :=
  e.window.head < e.window.capacity ∧
  (∀ fr ∈ e.window.buffer, fr.length = N) ∧
  e.ext_state.channels.length = N ∧
  e.ext_state.cursor_pos = e.window.capacity - 1 ∧
  ∀ ch, ch < N →
    ChInv MAX (e.ext_state.channels.getD ch ⟨0, 0, none⟩)
      (column ch e.window.iterList)

/-- An element of the buffer after a push is either an old element or the
pushed one. -/
theorem Fixed.mem_buffer_push {α : Type} (b : Fixed α) (x y : α)
    (hy : y ∈ (b.push x).2.buffer) : y ∈ b.buffer ∨ y = x := by
  by_cases h : b.capacity = 0
  · simp only [Fixed.push, Fixed.push_with_flag, if_pos h] at hy
    exact Or.inl hy
  · simp only [Fixed.push, Fixed.push_with_flag, if_neg h] at hy
    exact List.mem_or_eq_of_mem_set hy

/-- Folding `ExtremaState::push` over the remaining construction frames keeps
the per-channel invariant over the seen-so-far prefix. -/
theorem stateFold_inv (MAX : Bool) (N : Nat) :
    ∀ (rest seen : List (List Int)) (s : ExtremaState),
      1 ≤ seen.length →
      s.channels.length = N →
      s.cursor_pos = seen.length - 1 →
      (∀ fr ∈ rest, fr.length = N) →
      (∀ ch, ch < N →
        ChInv MAX (s.channels.getD ch ⟨0, 0, none⟩) (column ch seen)) →
      (rest.foldl (fun s fr => s.push MAX fr) s).channels.length = N ∧
      (rest.foldl (fun s fr => s.push MAX fr) s).cursor_pos
        = (seen ++ rest).length - 1 ∧
      ∀ ch, ch < N →
        ChInv MAX ((rest.foldl (fun s fr => s.push MAX fr) s).channels.getD ch
          ⟨0, 0, none⟩) (column ch (seen ++ rest)) := by
  intro rest
  induction rest with
  | nil =>
    intro seen s hseen hlen hcur _ hinv
    simp only [List.foldl_nil, List.append_nil]
    exact ⟨hlen, hcur, hinv⟩
  | cons fr rest ih =>
    intro seen s hseen hlen hcur hrest hinv
    have hfrN : fr.length = N := hrest fr (by simp)
    have hcur1 : s.cursor_pos + 1 = seen.length := by omega
    have hlen' : (s.push MAX fr).channels.length = N := by
      simp only [ExtremaState.push, length_pushChannels]
      omega
    have hcur' : (s.push MAX fr).cursor_pos = (seen ++ [fr]).length - 1 := by
      simp only [ExtremaState.push, List.length_append, List.length_cons]
      simp
      omega
    have hinv' : ∀ ch, ch < N →
        ChInv MAX ((s.push MAX fr).channels.getD ch ⟨0, 0, none⟩)
          (column ch (seen ++ [fr])) := by
      intro ch hch
      have hgd : (s.push MAX fr).channels.getD ch ⟨0, 0, none⟩
          = chPush MAX (s.channels.getD ch ⟨0, 0, none⟩) (fr.getD ch 0)
            (s.cursor_pos + 1) := by
        simp only [ExtremaState.push]
        exact getD_pushChannels MAX (s.cursor_pos + 1) _ s.channels fr ch
          (by omega) (by omega)
      rw [hgd, column_append]
      have hcol1 : column ch [fr] = [fr.getD ch 0] := rfl
      rw [hcol1]
      have hcursor : s.cursor_pos + 1 = (column ch seen).length := by
        rw [length_column]
        omega
      rw [hcursor]
      exact chPush_inv MAX _ _ _ (by rw [length_column]; omega) (hinv ch hch)
    have := ih (seen ++ [fr]) (s.push MAX fr) (by simp) hlen' hcur'
      (fun g hg => hrest g (by simp [hg])) hinv'
    simpa [List.append_assoc] using this

/-- Construction from a full non-empty buffer establishes the engine
invariant. -/
theorem EngInv_from (MAX : Bool) (N : Nat) (buffer : List (List Int))
    (hb : 1 ≤ buffer.length) (hbN : ∀ fr ∈ buffer, fr.length = N) :
    EngInv MAX N (ExtremaInner.__from MAX buffer) ∧
    (ExtremaInner.__from MAX buffer).window.iterList = buffer := by
  rcases buffer with _ | ⟨xs, rest⟩
  · simp at hb
  · have hxsN : xs.length = N := hbN xs (by simp)
    have hgen : ∀ ch, ch < N →
        ChInv MAX ((ExtremaState.genesis xs).channels.getD ch ⟨0, 0, none⟩)
          (column ch [xs]) := by
      intro ch hch
      have : (ExtremaState.genesis xs).channels.getD ch ⟨0, 0, none⟩
          = ⟨xs.getD ch 0, 0, none⟩ := by
        simp only [ExtremaState.genesis]
        exact getD_map_lt _ xs ch _ 0 (by omega)
      rw [this]
      have hcol : column ch [xs] = [xs.getD ch 0] := rfl
      rw [hcol]
      exact chGenesis_inv MAX (xs.getD ch 0)
    obtain ⟨hl, hc, hi⟩ := stateFold_inv MAX N rest [xs] (ExtremaState.genesis xs)
      (by simp) (by simp [ExtremaState.genesis]; omega) (by simp [ExtremaState.genesis])
      (fun g hg => hbN g (by simp [hg])) hgen
    refine ⟨⟨?_, ?_, ?_, ?_, ?_⟩, ?_⟩
    · simp [ExtremaInner.__from, Fixed.fromBuffer, Fixed.from_offset, Fixed.capacity]
    · intro fr hfr
      exact hbN fr (by simpa [ExtremaInner.__from, Fixed.fromBuffer,
        Fixed.from_offset] using hfr)
    · exact hl
    · simp only [ExtremaInner.__from]
      rw [hc]
      simp [Fixed.capacity, Fixed.fromBuffer, Fixed.from_offset]
    · intro ch hch
      have := hi ch hch
      simpa [ExtremaInner.__from, Fixed.iterList_fromBuffer] using this
    · simp [ExtremaInner.__from, Fixed.iterList_fromBuffer]

/-- One `__advance` step preserves the engine invariant and slides the
window's logical view. -/
theorem EngInv_advance (MAX : Bool) (N : Nat) (e : ExtremaInner)
    (input : List Int) (hin : input.length = N) (h : EngInv MAX N e) :
    EngInv MAX N (e.__advance MAX input) ∧
    (e.__advance MAX input).window.iterList
      = e.window.iterList.drop 1 ++ [input] := by
  obtain ⟨hhead, hfrN, hchlen, hcur, hchinv⟩ := h
  have hcap : 0 < e.window.capacity := by omega
  have hiter : (e.window.push input).2.iterList
      = e.window.iterList.drop 1 ++ [input] :=
    Fixed.iterList_push e.window input hhead
  refine ⟨⟨?_, ?_, ?_, ?_, ?_⟩, hiter⟩
  · exact Fixed.head_push_lt e.window input hcap
  · intro fr hfr
    rcases Fixed.mem_buffer_push e.window input fr hfr with hfr | rfl
    · exact hfrN fr hfr
    · exact hin
  · simp only [ExtremaInner.__advance, ExtremaState.push_pop, length_pushPopChannels]
    omega
  · simp only [ExtremaInner.__advance, ExtremaState.push_pop, Fixed.capacity_push]
    exact hcur
  · intro ch hch
    have hgd : (e.__advance MAX input).ext_state.channels.getD ch ⟨0, 0, none⟩
        = chPushPop MAX (e.ext_state.channels.getD ch ⟨0, 0, none⟩)
            (input.getD ch 0) e.ext_state.cursor_pos
            (column (0 + ch) (e.window.push input).2.iterList) := by
      simp only [ExtremaInner.__advance, ExtremaState.push_pop]
      exact getD_pushPopChannels MAX _ _ _ 0 _ input ch (by omega) (by omega)
    have hz : (0 : Nat) + ch = ch := by omega
    rw [hz] at hgd
    have hwin : (e.__advance MAX input).window = (e.window.push input).2 := rfl
    rw [hwin, hgd, hiter, column_slide]
    have hcursor : e.ext_state.cursor_pos
        = (column ch e.window.iterList).length - 1 := by
      rw [length_column, Fixed.length_iterList]
      exact hcur
    rw [hcursor]
    exact chPushPop_inv MAX _ _ _ (by rw [length_column, Fixed.length_iterList]; omega)
      (hchinv ch hch)

/-- Auxiliary: the slid window after one more step, re-associated. -/
theorem slideWindow_assoc {α : Type} (l m : List α) (x : α) (hl : 1 ≤ l.length) :
    (l.drop 1 ++ [x] ++ m).drop m.length = (l ++ x :: m).drop (m.length + 1) := by
  rcases l with _ | ⟨a, l'⟩
  · simp at hl
  · simp [List.append_assoc]

/-- Folding `__advance` over any feed preserves the engine invariant, and the
window's logical view is exactly the last `capacity` frames of
`initial window ++ feed`. -/
theorem advanceFold_spec (MAX : Bool) (N : Nat) :
    ∀ (feed : List (List Int)) (e : ExtremaInner),
      EngInv MAX N e → (∀ fr ∈ feed, fr.length = N) →
      EngInv MAX N (advanceFold MAX e feed) ∧
      (advanceFold MAX e feed).window.iterList
        = (e.window.iterList ++ feed).drop feed.length := by
  intro feed
  induction feed with
  | nil =>
    intro e he _
    exact ⟨he, by simp [advanceFold]⟩
  | cons fr feed ih =>
    intro e he hfN
    have hfr : fr.length = N := hfN fr (by simp)
    obtain ⟨he', hiter⟩ := EngInv_advance MAX N e fr hfr he
    obtain ⟨hrec1, hrec2⟩ := ih (e.__advance MAX fr) he' (fun g hg => hfN g (by simp [hg]))
    have hfold : advanceFold MAX e (fr :: feed)
        = advanceFold MAX (e.__advance MAX fr) feed := rfl
    refine ⟨by rw [hfold]; exact hrec1, ?_⟩
    rw [hfold, hrec2, hiter]
    have hcap : e.window.head < e.window.capacity := he.1
    have hlen1 : 1 ≤ e.window.iterList.length := by
      rw [Fixed.length_iterList]
      omega
    have hcons : (fr :: feed).length = feed.length + 1 := rfl
    rw [hcons]
    exact slideWindow_assoc _ _ _ hlen1

/-! ## Specification-side notions -/

/-- `m` is the true extremum (maximum in max-mode, minimum in min-mode) of
the value list `l`: it is one of the values and bounds all of them.  This is
the specification's notion, written with the plain order on values. -/
def isExtremumOf (MAX : Bool) (m : Int) (l : List Int) : Prop :=
  m ∈ l ∧ ∀ y ∈ l, (MAX = true → y ≤ m) ∧ (MAX = false → m ≤ y)

theorem extremum_of_surpasses (MAX : Bool) (m : Int) (l : List Int)
    (hmem : m ∈ l) (hall : ∀ y ∈ l, surpassesI MAX m y = true) :
    isExtremumOf MAX m l := by
  refine ⟨hmem, ?_⟩
  intro y hy
  have h := (surpassesI_true_iff MAX m y).1 (hall y hy)
  rcases MAX with _ | _ <;> simp at h <;> simp [h]

theorem getD_mem_of_lt {α : Type} (l : List α) (i : Nat) (d : α) (h : i < l.length) :
    l.getD i d ∈ l := by
  rw [List.getD_eq_getElem?_getD, List.getElem?_eq_getElem h]
  exact List.getElem_mem h

/-! ## Claim theorems for the extrema engine -/

/-- **C1.**  For every moving extrema engine (min-mode `MAX = false` or
max-mode `MAX = true`), every channel, and every sequence of frames fed via
`advance` (and hence `process`, which is `advance` followed by `current`)
after construction from a full buffer of `C ≥ 1` frames, `current()` on that
channel equals the true extremum of exactly the last
`min(frames_seen_so_far, C)` values seen on that channel: with the initial
buffer counted as seen, `frames_seen_so_far = C + feed.length ≥ C`, so those
are the last `C` values, i.e. `(buffer ++ feed).drop feed.length`, projected
onto the channel. -/
theorem extrema_current_true_extremum (MAX : Bool) (N : Nat)
    (buffer feed : List (List Int))
    (hb : 1 ≤ buffer.length)
    (hbN : ∀ fr ∈ buffer, fr.length = N)
    (hfN : ∀ fr ∈ feed, fr.length = N)
    (ch : Nat) (hch : ch < N) :
    isExtremumOf MAX
      ((advanceFold MAX (ExtremaInner.__from MAX buffer) feed).__current.getD ch 0)
      (column ch ((buffer ++ feed).drop feed.length)) := by
  obtain ⟨hinv0, hiter0⟩ := EngInv_from MAX N buffer hb hbN
  obtain ⟨hinv, hiter⟩ := advanceFold_spec MAX N feed _ hinv0 hfN
  rw [hiter0] at hiter
  obtain ⟨hhead, hfrN, hchlen, hcur, hchinv⟩ := hinv
  have hchi := hchinv ch hch
  rw [hiter] at hchi
  obtain ⟨hfp, hfval, hfall, -⟩ := hchi
  have hcurr : (advanceFold MAX (ExtremaInner.__from MAX buffer) feed).__current.getD ch 0
      = ((advanceFold MAX (ExtremaInner.__from MAX buffer) feed).ext_state.channels.getD
          ch ⟨0, 0, none⟩).f_ext := by
    unfold ExtremaInner.__current
    rw [getD_map_lt (fun c : ChExtrema => c.f_ext) _ ch 0 ⟨0, 0, none⟩ (by omega)]
  rw [hcurr, ← hfval]
  refine extremum_of_surpasses MAX _ _ (getD_mem_of_lt _ _ _ hfp) ?_
  rw [hfval]
  exact hfall

/-- Closed witness for C1: min-mode, one channel, window `[3, 1, 0, 2]`, one
further frame `5`; the current minimum is the true minimum of the last four
values `[1, 0, 2, 5]`. -/
theorem extrema_current_true_extremum_witness :
    (1 ≤ ([[3], [1], [0], [2]] : List (List Int)).length) ∧
    isExtremumOf false
      ((advanceFold false (ExtremaInner.__from false [[3], [1], [0], [2]])
        [[5]]).__current.getD 0 0)
      (column 0 (([[3], [1], [0], [2]] ++ [[5]] : List (List Int)).drop 1)) :=
  ⟨by decide,
    extrema_current_true_extremum false 1 [[3], [1], [0], [2]] [[5]]
      (by decide) (by decide) (by decide) 0 (by decide)⟩

/-- **C2.**  For every extrema engine, per channel, in every reachable state
(construction from a full buffer — whose intermediate append-only `push`
states are the construction states of the shorter prefix buffers — followed
by any number of steady-state `push_pop` steps via `advance`):
`frontier.value` is the true extremum of the whole window under the engine's
ordering, and the horizon, when present, is the true extremum of the
sub-window of frames strictly more recent than the frontier's position. -/
theorem extrema_frontier_horizon_invariant (MAX : Bool) (N : Nat)
    (buffer feed : List (List Int))
    (hb : 1 ≤ buffer.length)
    (hbN : ∀ fr ∈ buffer, fr.length = N)
    (hfN : ∀ fr ∈ feed, fr.length = N)
    (ch : Nat) (hch : ch < N) :
    isExtremumOf MAX
      (((advanceFold MAX (ExtremaInner.__from MAX buffer) feed).ext_state.channels.getD
          ch ⟨0, 0, none⟩).f_ext)
      (column ch (advanceFold MAX (ExtremaInner.__from MAX buffer) feed).window.iterList) ∧
    (∀ hv hp,
      ((advanceFold MAX (ExtremaInner.__from MAX buffer) feed).ext_state.channels.getD
          ch ⟨0, 0, none⟩).horizon = some (hv, hp) →
      isExtremumOf MAX hv
        ((column ch (advanceFold MAX (ExtremaInner.__from MAX buffer) feed).window.iterList).drop
          (((advanceFold MAX (ExtremaInner.__from MAX buffer) feed).ext_state.channels.getD
              ch ⟨0, 0, none⟩).f_pos + 1))) := by
  obtain ⟨hinv0, -⟩ := EngInv_from MAX N buffer hb hbN
  obtain ⟨hinv, -⟩ := advanceFold_spec MAX N feed _ hinv0 hfN
  obtain ⟨hhead, hfrN, hchlen, hcur, hchinv⟩ := hinv
  obtain ⟨hfp, hfval, hfall, hhor⟩ := hchinv ch hch
  constructor
  · rw [← hfval]
    refine extremum_of_surpasses MAX _ _ (getD_mem_of_lt _ _ _ hfp) ?_
    rw [hfval]
    exact hfall
  · intro hv hp heq
    rw [heq] at hhor
    obtain ⟨hb1, hb2, hb3⟩ := hhor
    have hmem : hv ∈ (column ch (advanceFold MAX (ExtremaInner.__from MAX buffer)
        feed).window.iterList).drop
        (((advanceFold MAX (ExtremaInner.__from MAX buffer) feed).ext_state.channels.getD
            ch ⟨0, 0, none⟩).f_pos + 1) := by
      rw [← hb2, ← getD_drop]
      refine getD_mem_of_lt _ _ _ ?_
      rw [List.length_drop]
      omega
    exact extremum_of_surpasses MAX _ _ hmem hb3

/-- Closed witness for C2: max-mode, two channels, window
`[(3,0), (1,7), (0,5), (2,6)]`, feed `[(5,1), (4,2)]`; checks the frontier
clause on channel 1 (the horizon clause is hypothetical and instantiated by
the theorem as well). -/
theorem extrema_frontier_horizon_invariant_witness :
    (1 ≤ ([[3, 0], [1, 7], [0, 5], [2, 6]] : List (List Int)).length) ∧
    (isExtremumOf true
      (((advanceFold true (ExtremaInner.__from true [[3, 0], [1, 7], [0, 5], [2, 6]])
          [[5, 1], [4, 2]]).ext_state.channels.getD 1 ⟨0, 0, none⟩).f_ext)
      (column 1 (advanceFold true (ExtremaInner.__from true [[3, 0], [1, 7], [0, 5], [2, 6]])
          [[5, 1], [4, 2]]).window.iterList) ∧
    (∀ hv hp,
      ((advanceFold true (ExtremaInner.__from true [[3, 0], [1, 7], [0, 5], [2, 6]])
          [[5, 1], [4, 2]]).ext_state.channels.getD 1 ⟨0, 0, none⟩).horizon = some (hv, hp) →
      isExtremumOf true hv
        ((column 1 (advanceFold true (ExtremaInner.__from true [[3, 0], [1, 7], [0, 5], [2, 6]])
            [[5, 1], [4, 2]]).window.iterList).drop
          (((advanceFold true (ExtremaInner.__from true [[3, 0], [1, 7], [0, 5], [2, 6]])
              [[5, 1], [4, 2]]).ext_state.channels.getD 1 ⟨0, 0, none⟩).f_pos + 1)))) :=
  ⟨by decide,
    extrema_frontier_horizon_invariant true 2 [[3, 0], [1, 7], [0, 5], [2, 6]]
      [[5, 1], [4, 2]] (by decide) (by decide) (by decide) 1 (by decide)⟩

/-- **C3.**  In the steady-state update (`push_pop` case `[PFN]`), when, on a
reachable engine state, the evicted frame is the frontier (`f_pos = 0`), a
horizon `(hv, hp)` exists, and the new channel value does not surpass the
horizon, the update promotes: the old horizon becomes the new frontier,
re-expressed at its absolute position `hp` in the slid window (where it holds
the value `hv`); and the linear rescan over every window frame strictly after
the new frontier's position determines the new horizon — here the rescan
region is never empty (a horizon can only exist when `C ≥ 2`), so the new
horizon is present and is a located true extremum of that region. -/
theorem extrema_promotion_rescan (MAX : Bool) (N : Nat)
    (buffer feed : List (List Int)) (x : List Int) (e : ExtremaInner)
    (hb : 1 ≤ buffer.length)
    (hbN : ∀ fr ∈ buffer, fr.length = N)
    (hfN : ∀ fr ∈ feed, fr.length = N)
    (hxN : x.length = N)
    (ch : Nat) (hch : ch < N)
    (he : e = advanceFold MAX (ExtremaInner.__from MAX buffer) feed)
    (hv : Int) (hp : Nat)
    (hpos0 : (e.ext_state.channels.getD ch ⟨0, 0, none⟩).f_pos = 0)
    (hhoreq : (e.ext_state.channels.getD ch ⟨0, 0, none⟩).horizon = some (hv, hp))
    (hns : surpassesI MAX (x.getD ch 0) hv = false) :
    ((e.__advance MAX x).ext_state.channels.getD ch ⟨0, 0, none⟩).f_ext = hv ∧
    ((e.__advance MAX x).ext_state.channels.getD ch ⟨0, 0, none⟩).f_pos = hp ∧
    (column ch (e.__advance MAX x).window.iterList).getD hp 0 = hv ∧
    ∃ e2 p2,
      ((e.__advance MAX x).ext_state.channels.getD ch ⟨0, 0, none⟩).horizon
        = some (e2, p2) ∧
      ((column ch (e.__advance MAX x).window.iterList).drop (hp + 1)).getD p2 0 = e2 ∧
      isExtremumOf MAX e2
        ((column ch (e.__advance MAX x).window.iterList).drop (hp + 1)) := by
  subst he
  obtain ⟨hinv0, -⟩ := EngInv_from MAX N buffer hb hbN
  obtain ⟨hinv, -⟩ := advanceFold_spec MAX N feed _ hinv0 hfN
  obtain ⟨hhead, hfrN, hchlen, hcur, hchinv⟩ := hinv
  obtain ⟨hfp, hfval, hfall, hhor⟩ := hchinv ch hch
  rw [hhoreq] at hhor
  obtain ⟨hb1, hb2, hb3⟩ := hhor
  rw [hpos0] at hb1 hb2 hb3
  have hvmem : hv ∈ column ch (advanceFold MAX (ExtremaInner.__from MAX buffer)
      feed).window.iterList := by
    rw [← hb2]
    exact getD_mem_of_lt _ _ _ hb1
  have hfh : surpassesI MAX ((advanceFold MAX (ExtremaInner.__from MAX buffer)
      feed).ext_state.channels.getD ch ⟨0, 0, none⟩).f_ext hv = true := hfall hv hvmem
  have hnsf : surpassesI MAX (x.getD ch 0)
      ((advanceFold MAX (ExtremaInner.__from MAX buffer) feed).ext_state.channels.getD
        ch ⟨0, 0, none⟩).f_ext = false := by
    cases hbool : surpassesI MAX (x.getD ch 0)
      ((advanceFold MAX (ExtremaInner.__from MAX buffer) feed).ext_state.channels.getD
        ch ⟨0, 0, none⟩).f_ext with
    | false => rfl
    | true =>
      have htr := surpassesI_trans MAX (x.getD ch 0) _ hv hbool hfh
      rw [htr] at hns
      exact absurd hns (by simp)
  have hgd : ((advanceFold MAX (ExtremaInner.__from MAX buffer) feed).__advance MAX
        x).ext_state.channels.getD ch ⟨0, 0, none⟩
      = chPushPop MAX ((advanceFold MAX (ExtremaInner.__from MAX buffer)
            feed).ext_state.channels.getD ch ⟨0, 0, none⟩)
          (x.getD ch 0)
          (advanceFold MAX (ExtremaInner.__from MAX buffer) feed).ext_state.cursor_pos
          (column (0 + ch) ((advanceFold MAX (ExtremaInner.__from MAX buffer)
            feed).window.push x).2.iterList) := by
    simp only [ExtremaInner.__advance, ExtremaState.push_pop]
    exact getD_pushPopChannels MAX _ _ _ 0 _ x ch (by omega) (by omega)
  have hz : (0 : Nat) + ch = ch := by omega
  rw [hz] at hgd
  have hiterx : ((advanceFold MAX (ExtremaInner.__from MAX buffer) feed).window.push
        x).2.iterList
      = (advanceFold MAX (ExtremaInner.__from MAX buffer) feed).window.iterList.drop 1
        ++ [x] :=
    Fixed.iterList_push _ _ hhead
  have hcolx : column ch ((advanceFold MAX (ExtremaInner.__from MAX buffer)
        feed).window.push x).2.iterList
      = (column ch (advanceFold MAX (ExtremaInner.__from MAX buffer)
          feed).window.iterList).drop 1 ++ [x.getD ch 0] := by
    rw [hiterx, column_slide]
  have hstep : chPushPop MAX ((advanceFold MAX (ExtremaInner.__from MAX buffer)
          feed).ext_state.channels.getD ch ⟨0, 0, none⟩)
        (x.getD ch 0)
        (advanceFold MAX (ExtremaInner.__from MAX buffer) feed).ext_state.cursor_pos
        ((column ch (advanceFold MAX (ExtremaInner.__from MAX buffer)
          feed).window.iterList).drop 1 ++ [x.getD ch 0])
      = ⟨hv, hp, scanHorizon MAX
          (((column ch (advanceFold MAX (ExtremaInner.__from MAX buffer)
            feed).window.iterList).drop 1 ++ [x.getD ch 0]).drop (hp + 1))⟩ := by
    unfold chPushPop
    rw [if_neg (by simp only [hnsf]; exact Bool.false_ne_true), hhoreq]
    dsimp only
    rw [if_pos hpos0, if_neg (by simp only [hns]; exact Bool.false_ne_true)]
  have hwin' : ((advanceFold MAX (ExtremaInner.__from MAX buffer) feed).__advance MAX
      x).window = ((advanceFold MAX (ExtremaInner.__from MAX buffer) feed).window.push
      x).2 := rfl
  have hst' : ((advanceFold MAX (ExtremaInner.__from MAX buffer) feed).__advance MAX
        x).ext_state.channels.getD ch ⟨0, 0, none⟩
      = ⟨hv, hp, scanHorizon MAX
          (((column ch (advanceFold MAX (ExtremaInner.__from MAX buffer)
            feed).window.iterList).drop 1 ++ [x.getD ch 0]).drop (hp + 1))⟩ := by
    rw [hgd, hcolx, hstep]
  have hcolLen : (column ch (advanceFold MAX (ExtremaInner.__from MAX buffer)
      feed).window.iterList).length
      = (advanceFold MAX (ExtremaInner.__from MAX buffer) feed).window.capacity := by
    rw [length_column, Fixed.length_iterList]
  have hpB : hp < (column ch (advanceFold MAX (ExtremaInner.__from MAX buffer)
      feed).window.iterList).length - 1 := by omega
  refine ⟨by rw [hst'], by rw [hst'], ?_, ?_⟩
  · rw [hwin', hcolx, getD_slide_lt _ _ _ _ hpB,
      show hp + 1 = 0 + 1 + hp by omega]
    exact hb2
  · rcases hscan : scanHorizon MAX
        (((column ch (advanceFold MAX (ExtremaInner.__from MAX buffer)
          feed).window.iterList).drop 1 ++ [x.getD ch 0]).drop (hp + 1))
      with _ | ⟨e2, p2⟩
    · exfalso
      have hnil := (scanHorizon_eq_none_iff MAX _).1 hscan
      rw [drop_slide _ _ _ (by omega)] at hnil
      simp at hnil
    · obtain ⟨hp1, hp2v, hp3⟩ := scanHorizon_some_spec MAX _ e2 p2 hscan
      refine ⟨e2, p2, ?_, ?_, ?_⟩
      · rw [hst']
        exact hscan
      · rw [hwin', hcolx]
        exact hp2v
      · rw [hwin', hcolx]
        refine extremum_of_surpasses MAX _ _ ?_ hp3
        rw [← hp2v]
        exact getD_mem_of_lt _ _ _ hp1

/-- Closed witness for C3: min-mode, window `[0, 1, 2]` (frontier `0` at the
oldest slot, horizon `(1, 0)`), push `3`: the frontier is evicted, `3` does
not surpass the horizon, and the promotion makes `1` the new frontier at
position `0` with a rescanned horizon over `[2, 3]`. -/
theorem extrema_promotion_rescan_witness :
    ((advanceFold false (ExtremaInner.__from false [[0], [1], [2]])
        []).ext_state.channels.getD 0 ⟨0, 0, none⟩).horizon = some (1, 0) ∧
    (((advanceFold false (ExtremaInner.__from false [[0], [1], [2]])
        []).__advance false [3]).ext_state.channels.getD 0 ⟨0, 0, none⟩).f_ext = 1 ∧
    (((advanceFold false (ExtremaInner.__from false [[0], [1], [2]])
        []).__advance false [3]).ext_state.channels.getD 0 ⟨0, 0, none⟩).f_pos = 0 ∧
    (column 0 ((advanceFold false (ExtremaInner.__from false [[0], [1], [2]])
        []).__advance false [3]).window.iterList).getD 0 0 = 1 ∧
    ∃ e2 p2,
      (((advanceFold false (ExtremaInner.__from false [[0], [1], [2]])
          []).__advance false [3]).ext_state.channels.getD 0 ⟨0, 0, none⟩).horizon
        = some (e2, p2) ∧
      ((column 0 ((advanceFold false (ExtremaInner.__from false [[0], [1], [2]])
          []).__advance false [3]).window.iterList).drop (0 + 1)).getD p2 0 = e2 ∧
      isExtremumOf false e2
        ((column 0 ((advanceFold false (ExtremaInner.__from false [[0], [1], [2]])
            []).__advance false [3]).window.iterList).drop (0 + 1)) :=
  ⟨by decide,
    extrema_promotion_rescan false 1 [[0], [1], [2]] [] [3]
      (advanceFold false (ExtremaInner.__from false [[0], [1], [2]]) [])
      (by decide) (by decide) (by decide) (by decide) 0 (by decide) rfl 1 0
      (by decide) (by decide) (by decide)⟩

/-- Counterexample to C7 as stated: in the steady state reached from the
min-mode window `[3, 1, 0, 2]` after pushing `5` (window `[1, 0, 2, 5]`), the
stored frontier is `(0, position 1)`; reading the window at offset `1`
counted backward from the most recent frame (position 0 = most recent) gives
`2`, not the frontier value `0`.  The stored position is an offset from the
*oldest* end. -/
theorem extrema_position_newest_counterexample :
    ¬ ((column 0 (advanceFold false (ExtremaInner.__from false
          [[3], [1], [0], [2]]) [[5]]).window.iterList).getD
        ((column 0 (advanceFold false (ExtremaInner.__from false
            [[3], [1], [0], [2]]) [[5]]).window.iterList).length - 1 -
          ((advanceFold false (ExtremaInner.__from false [[3], [1], [0], [2]])
            [[5]]).ext_state.channels.getD 0 ⟨0, 0, none⟩).f_pos) 0
      = ((advanceFold false (ExtremaInner.__from false [[3], [1], [0], [2]])
          [[5]]).ext_state.channels.getD 0 ⟨0, 0, none⟩).f_ext) := by
  decide

/-- **C7 (amended).**  At all times during steady-state operation (any
reachable state), the stored frontier position is an offset counted
*forward from the oldest frame* of the window (position 0 = oldest,
`C - 1` = newest): the window element at index `frontier.position` in
oldest → newest order equals `frontier.value`. -/
theorem extrema_position_oldest (MAX : Bool) (N : Nat)
    (buffer feed : List (List Int))
    (hb : 1 ≤ buffer.length)
    (hbN : ∀ fr ∈ buffer, fr.length = N)
    (hfN : ∀ fr ∈ feed, fr.length = N)
    (ch : Nat) (hch : ch < N) :
    ((advanceFold MAX (ExtremaInner.__from MAX buffer) feed).ext_state.channels.getD
        ch ⟨0, 0, none⟩).f_pos
      < (column ch (advanceFold MAX (ExtremaInner.__from MAX buffer)
          feed).window.iterList).length ∧
    (column ch (advanceFold MAX (ExtremaInner.__from MAX buffer)
        feed).window.iterList).getD
      ((advanceFold MAX (ExtremaInner.__from MAX buffer) feed).ext_state.channels.getD
        ch ⟨0, 0, none⟩).f_pos 0
      = ((advanceFold MAX (ExtremaInner.__from MAX buffer) feed).ext_state.channels.getD
          ch ⟨0, 0, none⟩).f_ext := by
  obtain ⟨hinv0, -⟩ := EngInv_from MAX N buffer hb hbN
  obtain ⟨hinv, -⟩ := advanceFold_spec MAX N feed _ hinv0 hfN
  obtain ⟨-, -, -, -, hchinv⟩ := hinv
  obtain ⟨hfp, hfval, -, -⟩ := hchinv ch hch
  exact ⟨hfp, hfval⟩

/-- Closed witness for the amended C7, at the counterexample's input: the
frontier `(0, position 1)` indexes the window `[1, 0, 2, 5]` from the oldest
end. -/
theorem extrema_position_oldest_witness :
    (1 ≤ ([[3], [1], [0], [2]] : List (List Int)).length) ∧
    (((advanceFold false (ExtremaInner.__from false [[3], [1], [0], [2]])
        [[5]]).ext_state.channels.getD 0 ⟨0, 0, none⟩).f_pos
      < (column 0 (advanceFold false (ExtremaInner.__from false [[3], [1], [0], [2]])
          [[5]]).window.iterList).length ∧
    (column 0 (advanceFold false (ExtremaInner.__from false [[3], [1], [0], [2]])
        [[5]]).window.iterList).getD
      ((advanceFold false (ExtremaInner.__from false [[3], [1], [0], [2]])
        [[5]]).ext_state.channels.getD 0 ⟨0, 0, none⟩).f_pos 0
      = ((advanceFold false (ExtremaInner.__from false [[3], [1], [0], [2]])
          [[5]]).ext_state.channels.getD 0 ⟨0, 0, none⟩).f_ext) :=
  ⟨by decide,
    extrema_position_oldest false 1 [[3], [1], [0], [2]] [[5]]
      (by decide) (by decide) (by decide) 0 (by decide)⟩

/-! ## Claim theorems for the `surpasses` ordering policy -/

/-- Counterexample to C5 as stated: in max-mode, a candidate *equal* to the
incumbent does surpass it (`partial_cmp` returns `Equal`, which falls into
the catch-all `_ => true` arm), whereas the claim says an equal candidate
never surpasses. -/
theorem surpasses_equal_counterexample :
    surpassesF true (FSample.val 5) (FSample.val 5) = true := by
  decide

/-- **C5 (amended).**  `surpasses(candidate, incumbent)` returns `true` iff
the candidate is comparable with the incumbent and *at least as good*
(non-strict): incumbent ≤ candidate in max-mode, candidate ≤ incumbent in
min-mode.  In particular a candidate equal to the incumbent *does* surpass
it; incomparable (NaN-like) candidates never surpass (see C6). -/
theorem surpasses_nonstrict_characterization (MAX : Bool) (a b : Int) :
    surpassesF MAX (FSample.val a) (FSample.val b) = true
      ↔ ((MAX = true → b ≤ a) ∧ (MAX = false → a ≤ b)) := by
  have h : surpassesF MAX (FSample.val a) (FSample.val b) = surpassesI MAX a b := rfl
  rw [h, surpassesI_true_iff]
  rcases MAX with _ | _ <;> simp

/-- **C6.**  A candidate that is incomparable to the incumbent under the
partial order (`partial_cmp` returns `None`, e.g. a NaN-like value on either
side) never surpasses, in both min-mode and max-mode. -/
theorem surpasses_incomparable_never (MAX : Bool) (c t : FSample)
    (h : FSample.pcmp c t = none) : surpassesF MAX c t = false := by
  unfold surpassesF
  rw [h]
  rfl

/-- Closed witness for C6: a NaN-like candidate against an ordinary incumbent
in max-mode. -/
theorem surpasses_incomparable_never_witness :
    FSample.pcmp FSample.nan (FSample.val 0) = none ∧
    surpassesF true FSample.nan (FSample.val 0) = false :=
  ⟨by decide, surpasses_incomparable_never true FSample.nan (FSample.val 0) (by decide)⟩

/-! ## Claim theorem for the zero-capacity ring buffer -/

/-- **C10.**  Pushing onto a `Fixed` ring buffer of capacity 0 is total: the
pushed item itself is returned as the "popped" element, `push_with_flag`
additionally reports the wrap flag as `true`, and the buffer (contents and
head index) is left unchanged. -/
theorem fixed_push_zero_capacity {α : Type} (b : Fixed α) (x : α)
    (h : b.capacity = 0) :
    b.push_with_flag x = ((x, true), b) ∧ b.push x = (x, b) := by
  constructor <;> simp [Fixed.push, Fixed.push_with_flag, h]

/-- Closed witness for C10: the empty-capacity buffer over `Int`. -/
theorem fixed_push_zero_capacity_witness :
    (Fixed.mk 0 ([] : List Int)).capacity = 0 ∧
    ((Fixed.mk 0 ([] : List Int)).push_with_flag 7 = ((7, true), Fixed.mk 0 []) ∧
      (Fixed.mk 0 ([] : List Int)).push 7 = (7, Fixed.mk 0 [])) :=
  ⟨by decide, fixed_push_zero_capacity (Fixed.mk 0 []) 7 (by decide)⟩

/-! ## The summage engine (src/stats/moving.rs, `SummageInner`)

`SummageInner<B, N, SQRT, POW2>` keeps the ring-buffer window (storing the
*already squared* frames when `POW2`) and the running channel-wise sum.
Samples are `FloatSample`s in the source; they are embedded as `ℚ` (the
specification asks for exact arithmetic), with the square root of `current`
taken in `ℝ`. -/

/-- Channel projection of a list of `ℚ`-frames. -/
def columnQ (ch : Nat) (w : List (List ℚ)) : List ℚ :=
  w.map (fun fr => fr.getD ch 0)

@[simp]
theorem length_columnQ (ch : Nat) (w : List (List ℚ)) :
    (columnQ ch w).length = w.length := by
  simp [columnQ]

theorem columnQ_slide (ch : Nat) (w : List (List ℚ)) (x : List ℚ) :
    columnQ ch (w.drop 1 ++ [x]) = (columnQ ch w).drop 1 ++ [x.getD ch 0] := by
  simp [columnQ, List.map_drop]

/-- `Frame::transform(|x| x * x)` applied when `POW2` is set. -/
def sqIf (POW2 : Bool) (fr : List ℚ) : List ℚ :=
  if POW2 then fr.map (fun q => q * q) else fr

@[simp]
theorem length_sqIf (POW2 : Bool) (fr : List ℚ) : (sqIf POW2 fr).length = fr.length := by
  rcases POW2 with _ | _ <;> simp [sqIf]

theorem sqIf_nonneg (fr : List ℚ) (q : ℚ) (h : q ∈ sqIf true fr) : 0 ≤ q := by
  simp only [sqIf, if_pos, List.mem_map] at h
  obtain ⟨a, -, rfl⟩ := h
  exact mul_self_nonneg a

/-- `add_assign_frame`: channel-wise addition. -/
def addF (a b : List ℚ) : List ℚ := List.zipWith (· + ·) a b

/-- `sub_assign_frame`: channel-wise subtraction. -/
def subF (a b : List ℚ) : List ℚ := List.zipWith (· - ·) a b

/-- `transform(|x| x.max(EQUILIBRIUM))`: the channel-wise zero floor taken
when the engine roots downstream. -/
def clampF (fr : List ℚ) : List ℚ := fr.map (fun q => max q 0)

theorem getD_zipWith {α β γ : Type} (f : α → β → γ) :
    ∀ (a : List α) (b : List β) (i : Nat) (da : α) (db : β) (dc : γ),
      i < a.length → i < b.length →
      (List.zipWith f a b).getD i dc = f (a.getD i da) (b.getD i db) := by
  intro a
  induction a with
  | nil => intro b i da db dc h1 _; simp at h1
  | cons x a ih =>
    intro b i da db dc h1 h2
    cases b with
    | nil => simp at h2
    | cons y b =>
      cases i with
      | zero => simp [List.zipWith]
      | succ i =>
        simp only [List.zipWith, List.getD_cons_succ]
        exact ih b i da db dc (by simpa using h1) (by simpa using h2)

/-- `SummageInner<B, N, SQRT, POW2>`: window plus running sum. -/
structure SummageInner where
  window : Fixed (List ℚ)
  sum : List ℚ
deriving Repr, DecidableEq

namespace SummageInner

/-- `SummageInner::__from`: square the buffer frames in place when `POW2`,
sum them all (starting from the equilibrium frame), wrap the (squared) buffer
as the window. -/
def __from (N : Nat) (POW2 : Bool) (buffer : List (List ℚ)) : SummageInner :=
  { window := Fixed.fromBuffer (buffer.map (fun fr => sqIf POW2 fr)),
    sum := (buffer.map (fun fr => sqIf POW2 fr)).foldl addF (List.replicate N 0) }

/-- `SummageInner::__reset`: zero the window and the sum (all float samples
have equilibrium 0, so this is correct for any SQRT/POW2 combination, as the
source comment notes). -/
def __reset (N : Nat) (s : SummageInner) : SummageInner :=
  { window := s.window.fill (List.replicate N 0), sum := List.replicate N 0 }

/-- `SummageInner::__from_empty`: wrap the buffer (dummy state), then
reset. -/
def __from_empty (N : Nat) (buffer : List (List ℚ)) : SummageInner :=
  SummageInner.__reset N
    { window := Fixed.fromBuffer buffer, sum := List.replicate N 0 }

/-- `SummageInner::__fill`: store the (squared when `POW2`) fill frame in
every slot; the sum is that frame scaled by the window length
(`fill_val.mul_amp(len_f)`; the `len as f32` conversion is exact for any
realistic window length and is modeled as exact). -/
def __fill (N : Nat) (POW2 : Bool) (s : SummageInner) (fill_val : List ℚ) :
    SummageInner :=
  { window := s.window.fill (sqIf POW2 fill_val),
    sum := (sqIf POW2 fill_val).map (fun q => q * (s.window.capacity : ℚ)) }

/-- `SummageInner::__fill_with`: fill the slots, in order, with the (squared
when `POW2`) frames produced by the closure, accumulating the sum along the
way. -/
def __fill_with (N : Nat) (POW2 : Bool) (s : SummageInner) (g : Nat → List ℚ) :
    SummageInner :=
  { window := s.window.fill_with (fun i => sqIf POW2 (g i)),
    sum := ((List.range s.window.capacity).map (fun i => sqIf POW2 (g i))).foldl
      addF (List.replicate N 0) }

/-- `SummageInner::__advance`: square the input when `POW2`, push it, add it
to and subtract the popped frame from the sum, and floor the sum at the zero
equilibrium when `SQRT` (absorbing float rounding under the later root). -/
def __advance (N : Nat) (SQRT POW2 : Bool) (s : SummageInner) (input : List ℚ) :
    SummageInner :=
  let input2 := sqIf POW2 input
  let sum1 := subF (addF s.sum input2) ((s.window.push input2).1)
  { window := (s.window.push input2).2,
    sum := if SQRT then clampF sum1 else sum1 }

/-- `SummageInner::__current`: `sum / C` channel-wise, then square-rooted
when `SQRT`.  Read-only (a pure function of the state).  The square root is
the real square root, hence the `ℝ`-valued result. -/
noncomputable def __current (SQRT : Bool) (s : SummageInner) : List ℝ :=
  (s.sum.map (fun q => q / (s.window.capacity : ℚ))).map
    (fun q : ℚ => if SQRT then Real.sqrt (q : ℝ) else (q : ℝ))

/-- The public `From::from` of the generated summage calculators: asserts a
non-empty buffer, then `__from`. -/
def from? (N : Nat) (POW2 : Bool) (buffer : List (List ℚ)) : Option SummageInner :=
  if 0 < buffer.length then some (__from N POW2 buffer) else none

/-- The public `from_empty`: asserts a non-empty buffer, then
`__from_empty`. -/
def fromEmpty? (N : Nat) (buffer : List (List ℚ)) : Option SummageInner :=
  if 0 < buffer.length then some (__from_empty N buffer) else none

end SummageInner

/-- The mutating operations of a summage engine, as claim C8 ranges over
them.  `fill_with`'s stateful closure is modeled by the (pure) sequence of
frames it produces. -/
inductive SummageOp where
  | advance (fr : List ℚ)
  | reset
  | fill (fr : List ℚ)
  | fillWith (g : Nat → List ℚ)

/-- Well-formedness of an operation's frames for `N` channels. -/
def SummageOp.wf (N : Nat) : SummageOp → Prop
  | .advance fr => fr.length = N
  | .reset => True
  | .fill fr => fr.length = N
  | .fillWith g => ∀ i, (g i).length = N

/-- Dispatch one operation. -/
def applySummageOp (N : Nat) (SQRT POW2 : Bool) (s : SummageInner) :
    SummageOp → SummageInner
  | .advance fr => s.__advance N SQRT POW2 fr
  | .reset => s.__reset N
  | .fill fr => s.__fill N POW2 fr
  | .fillWith g => s.__fill_with N POW2 g

/-- The summage engine invariant: a valid window of `N`-channel frames, an
`N`-channel sum, window contents non-negative when they are stored squares
(`POW2`), and — the heart of claim C8 — the stored running sum equals the
channel-wise sum of the frames currently in the window. -/
def SumInv (N : Nat) (POW2 : Bool) (s : SummageInner) : Prop :=
  s.window.head < s.window.capacity ∧
  (∀ fr ∈ s.window.buffer, fr.length = N) ∧
  s.sum.length = N ∧
  (POW2 = true → ∀ fr ∈ s.window.buffer, ∀ q ∈ fr, 0 ≤ q) ∧
  ∀ ch, ch < N → s.sum.getD ch 0 = (columnQ ch s.window.iterList).sum

theorem Fixed.mem_iterList {α : Type} (b : Fixed α) (fr : α)
    (h : fr ∈ b.iterList) : fr ∈ b.buffer := by
  rcases List.mem_append.1 h with h | h
  · exact List.mem_of_mem_drop h
  · exact List.mem_of_mem_take h

theorem getD_replicate_self {α : Type} (n : Nat) (a : α) (i : Nat) :
    (List.replicate n a).getD i a = a := by
  by_cases h : i < n
  · rw [List.getD_eq_getElem?_getD,
      List.getElem?_eq_getElem (by simpa using h), List.getElem_replicate]
    rfl
  · rw [List.getD_eq_getElem?_getD, List.getElem?_eq_none (by simpa using h)]
    rfl

theorem columnQ_nonneg (ch : Nat) (w : List (List ℚ))
    (h : ∀ fr ∈ w, ∀ q ∈ fr, 0 ≤ q) : ∀ q ∈ columnQ ch w, 0 ≤ q := by
  intro q hq
  simp only [columnQ, List.mem_map] at hq
  obtain ⟨fr, hfr, rfl⟩ := hq
  by_cases hlt : ch < fr.length
  · exact h fr hfr _ (getD_mem_of_lt fr ch 0 hlt)
  · rw [List.getD_eq_getElem?_getD, List.getElem?_eq_none (by omega)]
    exact le_refl 0

theorem foldl_addF_spec (N : Nat) :
    ∀ (frames : List (List ℚ)) (acc : List ℚ),
      acc.length = N → (∀ fr ∈ frames, fr.length = N) →
      (frames.foldl addF acc).length = N ∧
      ∀ ch, ch < N →
        (frames.foldl addF acc).getD ch 0
          = acc.getD ch 0 + (columnQ ch frames).sum := by
  intro frames
  induction frames with
  | nil =>
    intro acc h1 _
    exact ⟨h1, fun ch _ => by simp [columnQ]⟩
  | cons fr frames ih =>
    intro acc h1 h2
    have hfr : fr.length = N := h2 fr (by simp)
    have haddlen : (addF acc fr).length = N := by
      simp only [addF, List.length_zipWith]
      omega
    obtain ⟨ihl, ihs⟩ := ih (addF acc fr) haddlen (fun g hg => h2 g (by simp [hg]))
    refine ⟨ihl, ?_⟩
    intro ch hch
    rw [List.foldl_cons, ihs ch hch]
    have hz : (addF acc fr).getD ch 0 = acc.getD ch 0 + fr.getD ch 0 := by
      unfold addF
      exact getD_zipWith (· + ·) acc fr ch 0 0 0 (by omega) (by omega)
    rw [hz]
    have hcol : columnQ ch (fr :: frames) = fr.getD ch 0 :: columnQ ch frames := rfl
    rw [hcol, List.sum_cons]
    ring

/-- The sum of a channel column after one window slide. -/
theorem sum_slide (l : List ℚ) (x : ℚ) (hl : l ≠ []) :
    (l.drop 1 ++ [x]).sum = l.sum - l.getD 0 0 + x := by
  rcases l with _ | ⟨a, t⟩
  · exact absurd rfl hl
  · simp
    try ring

/-- `__reset` establishes the invariant over any window of positive
capacity (no precondition on the rest of the pre-state). -/
theorem sumInv_reset (N : Nat) (POW2 : Bool) (s : SummageInner)
    (hc : 1 ≤ s.window.capacity) : SumInv N POW2 (s.__reset N) := by
  refine ⟨?_, ?_, ?_, ?_, ?_⟩
  · simpa [SummageInner.__reset, Fixed.fill, Fixed.capacity] using hc
  · intro fr hfr
    simp only [SummageInner.__reset, Fixed.fill] at hfr
    rw [List.eq_of_mem_replicate hfr]
    simp
  · simp [SummageInner.__reset]
  · intro _ fr hfr
    simp only [SummageInner.__reset, Fixed.fill] at hfr
    rw [List.eq_of_mem_replicate hfr]
    intro q hq
    rw [List.eq_of_mem_replicate hq]
  · intro ch hch
    simp only [SummageInner.__reset, Fixed.fill, Fixed.iterList]
    rw [getD_replicate_self]
    have hcols : ∀ (m : Nat),
        (columnQ ch (List.replicate m (List.replicate N (0 : ℚ)))).sum = 0 := by
      intro m
      induction m with
      | zero => simp [columnQ]
      | succ m ihm =>
        rw [List.replicate_succ]
        have : columnQ ch (List.replicate N (0 : ℚ)
              :: List.replicate m (List.replicate N (0 : ℚ)))
            = (List.replicate N (0 : ℚ)).getD ch 0
              :: columnQ ch (List.replicate m (List.replicate N (0 : ℚ))) := rfl
        rw [this, List.sum_cons, ihm, getD_replicate_self]
        ring
    rw [List.drop_replicate, List.take_replicate]
    rw [show columnQ ch (List.replicate (s.window.buffer.length - 0)
          (List.replicate N (0 : ℚ)) ++ List.replicate (min 0 s.window.buffer.length)
          (List.replicate N (0 : ℚ)))
        = columnQ ch (List.replicate (s.window.buffer.length - 0)
          (List.replicate N (0 : ℚ)))
          ++ columnQ ch (List.replicate (min 0 s.window.buffer.length)
          (List.replicate N (0 : ℚ))) from by simp [columnQ]]
    rw [List.sum_append, hcols, hcols]
    ring

/-- Construction from a pre-filled buffer establishes the invariant: the
(squared when `POW2`) buffer is the window and the sum is the fold of its
frames. -/
theorem sumInv_from (N : Nat) (POW2 : Bool) (buffer : List (List ℚ))
    (hb : 1 ≤ buffer.length) (hbN : ∀ fr ∈ buffer, fr.length = N) :
    SumInv N POW2 (SummageInner.__from N POW2 buffer) := by
  have hstoredN : ∀ fr ∈ buffer.map (fun fr => sqIf POW2 fr), fr.length = N := by
    intro fr hfr
    rw [List.mem_map] at hfr
    obtain ⟨g, hg, rfl⟩ := hfr
    rw [length_sqIf]
    exact hbN g hg
  obtain ⟨hflen, hfsum⟩ := foldl_addF_spec N (buffer.map (fun fr => sqIf POW2 fr))
    (List.replicate N 0) (by simp) hstoredN
  refine ⟨?_, ?_, ?_, ?_, ?_⟩
  · simp only [SummageInner.__from, Fixed.fromBuffer, Fixed.from_offset, Fixed.capacity]
    simp
    omega
  · intro fr hfr
    exact hstoredN fr (by simpa [SummageInner.__from, Fixed.fromBuffer,
      Fixed.from_offset] using hfr)
  · exact hflen
  · intro hP fr hfr
    simp only [SummageInner.__from, Fixed.fromBuffer, Fixed.from_offset] at hfr
    rw [List.mem_map] at hfr
    obtain ⟨g, -, rfl⟩ := hfr
    subst hP
    exact sqIf_nonneg g
  · intro ch hch
    have := hfsum ch hch
    rw [getD_replicate_self] at this
    simp only [SummageInner.__from]
    rw [Fixed.iterList_fromBuffer]
    rw [this]
    ring

/-- `__from_empty` establishes the invariant for any non-empty buffer. -/
theorem sumInv_from_empty (N : Nat) (POW2 : Bool) (buffer : List (List ℚ))
    (hb : 1 ≤ buffer.length) :
    SumInv N POW2 (SummageInner.__from_empty N buffer) := by
  unfold SummageInner.__from_empty
  exact sumInv_reset N POW2 _ (by simpa [Fixed.fromBuffer, Fixed.from_offset,
    Fixed.capacity] using hb)

/-- Each mutating operation preserves the invariant (with `POW2` forced when
`SQRT` — the three instantiated engines satisfy this). -/
theorem sumInv_applyOp (N : Nat) (SQRT POW2 : Bool)
    (hSP : SQRT = true → POW2 = true)
    (s : SummageInner) (op : SummageOp) (hwf : op.wf N)
    (hinv : SumInv N POW2 s) :
    SumInv N POW2 (applySummageOp N SQRT POW2 s op) := by
  obtain ⟨hhead, hfrN, hsumlen, hnn, hsum⟩ := hinv
  have hcap : 1 ≤ s.window.capacity := by omega
  cases op with
  | reset => exact sumInv_reset N POW2 s hcap
  | fill fr =>
    have hfrN' : fr.length = N := hwf
    refine ⟨?_, ?_, ?_, ?_, ?_⟩
    · simpa [applySummageOp, SummageInner.__fill, Fixed.fill, Fixed.capacity] using hcap
    · intro g hg
      simp only [applySummageOp, SummageInner.__fill, Fixed.fill] at hg
      rw [List.eq_of_mem_replicate hg, length_sqIf]
      exact hfrN'
    · simp only [applySummageOp, SummageInner.__fill, List.length_map, length_sqIf]
      exact hfrN'
    · intro hP g hg
      simp only [applySummageOp, SummageInner.__fill, Fixed.fill] at hg
      rw [List.eq_of_mem_replicate hg]
      subst hP
      exact sqIf_nonneg fr
    · intro ch hch
      simp only [applySummageOp, SummageInner.__fill, Fixed.fill, Fixed.iterList]
      rw [getD_map_lt (fun q => q * (s.window.capacity : ℚ)) _ ch 0 0
        (by rw [length_sqIf]; omega)]
      rw [List.drop_replicate, List.take_replicate]
      have hcols : ∀ (m : Nat),
          (columnQ ch (List.replicate m (sqIf POW2 fr))).sum
            = m * ((sqIf POW2 fr).getD ch 0) := by
        intro m
        induction m with
        | zero => simp [columnQ]
        | succ m ihm =>
          rw [List.replicate_succ]
          have : columnQ ch (sqIf POW2 fr :: List.replicate m (sqIf POW2 fr))
              = (sqIf POW2 fr).getD ch 0
                :: columnQ ch (List.replicate m (sqIf POW2 fr)) := rfl
          rw [this, List.sum_cons, ihm]
          push_cast
          ring
      rw [show columnQ ch (List.replicate (s.window.buffer.length - 0)
            (sqIf POW2 fr) ++ List.replicate (min 0 s.window.buffer.length)
            (sqIf POW2 fr))
          = columnQ ch (List.replicate (s.window.buffer.length - 0) (sqIf POW2 fr))
            ++ columnQ ch (List.replicate (min 0 s.window.buffer.length)
            (sqIf POW2 fr)) from by simp [columnQ]]
      rw [List.sum_append, hcols, hcols]
      simp only [Fixed.capacity, Nat.sub_zero, Nat.min_self]
      simp
      ring
  | fillWith g =>
    have hgN : ∀ i, (g i).length = N := hwf
    have hvalsN : ∀ fr ∈ (List.range s.window.capacity).map
        (fun i => sqIf POW2 (g i)), fr.length = N := by
      intro fr hfr
      rw [List.mem_map] at hfr
      obtain ⟨i, -, rfl⟩ := hfr
      rw [length_sqIf]
      exact hgN i
    obtain ⟨hflen, hfsum⟩ := foldl_addF_spec N
      ((List.range s.window.capacity).map (fun i => sqIf POW2 (g i)))
      (List.replicate N 0) (by simp) hvalsN
    refine ⟨?_, ?_, ?_, ?_, ?_⟩
    · simp only [applySummageOp, SummageInner.__fill_with, Fixed.fill_with,
        Fixed.capacity, List.length_map, List.length_range]
      simpa [Fixed.capacity] using hcap
    · intro fr hfr
      exact hvalsN fr (by simpa [applySummageOp, SummageInner.__fill_with,
        Fixed.fill_with, Fixed.capacity] using hfr)
    · exact hflen
    · intro hP fr hfr
      simp only [applySummageOp, SummageInner.__fill_with, Fixed.fill_with,
        Fixed.capacity] at hfr
      rw [List.mem_map] at hfr
      obtain ⟨i, -, rfl⟩ := hfr
      subst hP
      exact sqIf_nonneg (g i)
    · intro ch hch
      have := hfsum ch hch
      rw [getD_replicate_self] at this
      simp only [Fixed.capacity] at this
      simp only [applySummageOp, SummageInner.__fill_with, Fixed.fill_with,
        Fixed.iterList, Fixed.capacity, List.drop_zero, List.take_zero,
        List.append_nil]
      rw [this]
      ring
  | advance fr =>
    have hfrN' : fr.length = N := hwf
    have hin2N : (sqIf POW2 fr).length = N := by rw [length_sqIf]; exact hfrN'
    have hiterlen : s.window.iterList.length = s.window.capacity :=
      Fixed.length_iterList s.window
    have hpop : (s.window.push (sqIf POW2 fr)).1
        = s.window.iterList.getD 0 (sqIf POW2 fr) :=
      Fixed.push_fst s.window (sqIf POW2 fr) hhead
    have hpopmem : (s.window.push (sqIf POW2 fr)).1 ∈ s.window.buffer := by
      rw [hpop]
      exact Fixed.mem_iterList s.window _ (getD_mem_of_lt _ _ _ (by omega))
    have hpopN : (s.window.push (sqIf POW2 fr)).1.length = N := hfrN _ hpopmem
    have hadd1 : (addF s.sum (sqIf POW2 fr)).length = N := by
      simp only [addF, List.length_zipWith]
      omega
    have hsub1 : (subF (addF s.sum (sqIf POW2 fr))
        ((s.window.push (sqIf POW2 fr)).1)).length = N := by
      simp only [subF, List.length_zipWith]
      omega
    have hiter' : (s.window.push (sqIf POW2 fr)).2.iterList
        = s.window.iterList.drop 1 ++ [sqIf POW2 fr] :=
      Fixed.iterList_push s.window _ hhead
    have hmemnew : ∀ g ∈ (s.window.push (sqIf POW2 fr)).2.buffer,
        g ∈ s.window.buffer ∨ g = sqIf POW2 fr :=
      fun g hg => Fixed.mem_buffer_push s.window _ g hg
    -- the channel-wise value of the pre-clamp sum
    have hsum1 : ∀ ch, ch < N →
        (subF (addF s.sum (sqIf POW2 fr)) ((s.window.push (sqIf POW2 fr)).1)).getD ch 0
          = (columnQ ch ((s.window.push (sqIf POW2 fr)).2.iterList)).sum := by
      intro ch hch
      have h1 : (subF (addF s.sum (sqIf POW2 fr))
            ((s.window.push (sqIf POW2 fr)).1)).getD ch 0
          = (s.sum.getD ch 0 + (sqIf POW2 fr).getD ch 0)
            - ((s.window.push (sqIf POW2 fr)).1).getD ch 0 := by
        unfold subF
        rw [getD_zipWith (· - ·) _ _ ch 0 0 0 (by omega) (by omega)]
        unfold addF
        rw [getD_zipWith (· + ·) _ _ ch 0 0 0 (by omega) (by omega)]
      rw [h1, hiter', columnQ_slide]
      have hnonnil : columnQ ch s.window.iterList ≠ [] := by
        have : (columnQ ch s.window.iterList).length = s.window.capacity := by
          rw [length_columnQ, hiterlen]
        intro hcontra
        rw [hcontra] at this
        simp at this
        omega
      rw [sum_slide _ _ hnonnil, hsum ch hch]
      have hpopch : ((s.window.push (sqIf POW2 fr)).1).getD ch 0
          = (columnQ ch s.window.iterList).getD 0 0 := by
        rw [hpop]
        unfold columnQ
        rw [getD_map_lt (fun g : List ℚ => g.getD ch 0) _ 0 0 (sqIf POW2 fr)
          (by omega)]
      rw [hpopch]
      ring
    refine ⟨?_, ?_, ?_, ?_, ?_⟩
    · simp only [applySummageOp, SummageInner.__advance]
      exact Fixed.head_push_lt s.window _ (by omega)
    · intro g hg
      simp only [applySummageOp, SummageInner.__advance] at hg
      rcases hmemnew g hg with hg | rfl
      · exact hfrN g hg
      · exact hin2N
    · simp only [applySummageOp, SummageInner.__advance]
      rcases SQRT with _ | _
      · simpa using hsub1
      · simp only [if_pos rfl, clampF, List.length_map]
        simpa using hsub1
    · intro hP g hg
      simp only [applySummageOp, SummageInner.__advance] at hg
      rcases hmemnew g hg with hg | rfl
      · exact hnn hP g hg
      · subst hP
        exact sqIf_nonneg fr
    · intro ch hch
      simp only [applySummageOp, SummageInner.__advance]
      rcases hSQ : SQRT with _ | _
      · simp only [Bool.false_eq_true, if_false]
        exact hsum1 ch hch
      · simp only [if_pos rfl, if_true]
        have hP : POW2 = true := hSP hSQ
        have hval := hsum1 ch hch
        have hnonneg : 0 ≤ (columnQ ch ((s.window.push (sqIf POW2 fr)).2.iterList)).sum := by
          refine List.sum_nonneg ?_
          refine columnQ_nonneg ch _ ?_
          intro g hg
          have hg' : g ∈ (s.window.push (sqIf POW2 fr)).2.buffer :=
            Fixed.mem_iterList _ g hg
          rcases hmemnew g hg' with hg'' | rfl
          · exact hnn hP g hg''
          · subst hP
            exact sqIf_nonneg fr
        -- clampF leaves a non-negative channel value unchanged
        have hclamp : (clampF (subF (addF s.sum (sqIf POW2 fr))
              ((s.window.push (sqIf POW2 fr)).1))).getD ch 0
            = max ((subF (addF s.sum (sqIf POW2 fr))
              ((s.window.push (sqIf POW2 fr)).1)).getD ch 0) 0 := by
          unfold clampF
          exact getD_map_lt (fun q : ℚ => max q 0) _ ch 0 0 (by omega)
        rw [hclamp, hval]
        exact max_eq_left hnonneg

/-- Folding any well-formed operation sequence preserves the invariant. -/
theorem sumInv_fold (N : Nat) (SQRT POW2 : Bool)
    (hSP : SQRT = true → POW2 = true) :
    ∀ (ops : List SummageOp) (s : SummageInner),
      SumInv N POW2 s → (∀ op ∈ ops, op.wf N) →
      SumInv N POW2 (ops.foldl (applySummageOp N SQRT POW2) s) := by
  intro ops
  induction ops with
  | nil => intro s hs _; exact hs
  | cons op ops ih =>
    intro s hs hwf
    rw [List.foldl_cons]
    exact ih _ (sumInv_applyOp N SQRT POW2 hSP s op (hwf op (by simp)) hs)
      (fun g hg => hwf g (by simp [hg]))

/-- **C8.**  For every summage engine (moving mean `¬SQRT, ¬POW2`,
mean-square `¬SQRT, POW2`, RMS `SQRT, POW2` — every instantiated engine
satisfies `SQRT → POW2`), after any sequence of `advance` / `fill` /
`fill_with` / `reset` operations following construction by `from` or
`from_empty`, and for every channel: the stored running sum equals the
channel-wise sum of the frames currently in the window (which are the
inputs, squared on entry when `POW2`) under exact arithmetic — the zero
clamp applied when `SQRT` never changes the value, because a window of
squares has a non-negative sum — and `current()` returns `sum / C`,
square-rooted when `SQRT`, as a pure read of the state. -/
theorem summage_sum_and_current (N : Nat) (SQRT POW2 : Bool)
    (hSP : SQRT = true → POW2 = true)
    (buffer : List (List ℚ)) (ops : List SummageOp) (s0 : SummageInner)
    (hbN : ∀ fr ∈ buffer, fr.length = N)
    (hops : ∀ op ∈ ops, op.wf N)
    (hs0 : SummageInner.from? N POW2 buffer = some s0 ∨
      SummageInner.fromEmpty? N buffer = some s0)
    (ch : Nat) (hch : ch < N) :
    (ops.foldl (applySummageOp N SQRT POW2) s0).sum.getD ch 0
      = (columnQ ch (ops.foldl (applySummageOp N SQRT POW2) s0).window.iterList).sum ∧
    ((ops.foldl (applySummageOp N SQRT POW2) s0).__current SQRT).getD ch 0
      = (if SQRT = true
          then Real.sqrt
            ((((columnQ ch (ops.foldl (applySummageOp N SQRT POW2)
                s0).window.iterList).sum
              / ((ops.foldl (applySummageOp N SQRT POW2) s0).window.capacity : ℚ)
              : ℚ) : ℝ))
          else ((((columnQ ch (ops.foldl (applySummageOp N SQRT POW2)
                s0).window.iterList).sum
              / ((ops.foldl (applySummageOp N SQRT POW2) s0).window.capacity : ℚ)
              : ℚ) : ℝ))) := by
  have hinv0 : SumInv N POW2 s0 := by
    rcases hs0 with hs0 | hs0
    · unfold SummageInner.from? at hs0
      by_cases hb : 0 < buffer.length
      · rw [if_pos hb, Option.some.injEq] at hs0
        rw [← hs0]
        exact sumInv_from N POW2 buffer hb hbN
      · rw [if_neg hb] at hs0
        exact absurd hs0 (by simp)
    · unfold SummageInner.fromEmpty? at hs0
      by_cases hb : 0 < buffer.length
      · rw [if_pos hb, Option.some.injEq] at hs0
        rw [← hs0]
        exact sumInv_from_empty N POW2 buffer hb
      · rw [if_neg hb] at hs0
        exact absurd hs0 (by simp)
  have hinv := sumInv_fold N SQRT POW2 hSP ops s0 hinv0 hops
  obtain ⟨hhead, hfrN, hsumlen, hnn, hsum⟩ := hinv
  refine ⟨hsum ch hch, ?_⟩
  unfold SummageInner.__current
  have h1 : (((ops.foldl (applySummageOp N SQRT POW2) s0).sum.map
        (fun q => q / (((ops.foldl (applySummageOp N SQRT POW2)
          s0).window.capacity : ℚ)))).map
        (fun q : ℚ => if SQRT = true then Real.sqrt (q : ℝ) else (q : ℝ))).getD ch 0
      = (fun q : ℚ => if SQRT = true then Real.sqrt (q : ℝ) else (q : ℝ))
        (((ops.foldl (applySummageOp N SQRT POW2) s0).sum.map
          (fun q => q / (((ops.foldl (applySummageOp N SQRT POW2)
            s0).window.capacity : ℚ)))).getD ch 0) := by
    refine getD_map_lt _ _ ch 0 0 ?_
    rw [List.length_map]
    omega
  have h2 : ((ops.foldl (applySummageOp N SQRT POW2) s0).sum.map
        (fun q => q / (((ops.foldl (applySummageOp N SQRT POW2)
          s0).window.capacity : ℚ)))).getD ch 0
      = ((ops.foldl (applySummageOp N SQRT POW2) s0).sum.getD ch 0)
        / (((ops.foldl (applySummageOp N SQRT POW2) s0).window.capacity : ℚ)) := by
    refine getD_map_lt _ _ ch 0 0 ?_
    omega
  refine h1.trans ?_
  rw [h2, hsum ch hch]

/-- Closed witness for C8: one channel, plain moving mean
(`SQRT = POW2 = false`), window `[1, 2]`, then one `advance 4` and one
`fill 3`. -/
theorem summage_sum_and_current_witness :
    ((([SummageOp.advance [4], SummageOp.fill [3]]).foldl
        (applySummageOp 1 false false)
        (SummageInner.__from 1 false [[1], [2]])).sum.getD 0 0
      = (columnQ 0 (([SummageOp.advance [4], SummageOp.fill [3]]).foldl
          (applySummageOp 1 false false)
          (SummageInner.__from 1 false [[1], [2]])).window.iterList).sum) ∧
    ((([SummageOp.advance [4], SummageOp.fill [3]]).foldl
        (applySummageOp 1 false false)
        (SummageInner.__from 1 false [[1], [2]])).__current false).getD 0 0
      = (if false = true
          then Real.sqrt
            ((((columnQ 0 (([SummageOp.advance [4], SummageOp.fill [3]]).foldl
                (applySummageOp 1 false false)
                (SummageInner.__from 1 false [[1], [2]])).window.iterList).sum
              / ((([SummageOp.advance [4], SummageOp.fill [3]]).foldl
                (applySummageOp 1 false false)
                (SummageInner.__from 1 false [[1], [2]])).window.capacity : ℚ)
              : ℚ) : ℝ))
          else ((((columnQ 0 (([SummageOp.advance [4], SummageOp.fill [3]]).foldl
                (applySummageOp 1 false false)
                (SummageInner.__from 1 false [[1], [2]])).window.iterList).sum
              / ((([SummageOp.advance [4], SummageOp.fill [3]]).foldl
                (applySummageOp 1 false false)
                (SummageInner.__from 1 false [[1], [2]])).window.capacity : ℚ)
              : ℚ) : ℝ))) :=
  summage_sum_and_current 1 false false (by decide) [[1], [2]]
    [SummageOp.advance [4], SummageOp.fill [3]]
    (SummageInner.__from 1 false [[1], [2]])
    (by decide)
    (by
      intro op hop
      rcases List.mem_cons.1 hop with rfl | hop
      · rfl
      · rcases List.mem_cons.1 hop with rfl | hop
        · rfl
        · simp at hop)
    (Or.inl rfl)
    0 (by decide)

/-! ## The `Buffered` activation wrapper (src/stats/moving.rs, macro-generated
`Buffered$cls State`)

The generated wrapper code is identical for all five calculators, so it is
embedded once, generically over the engine type `E` and the wrapped engine's
operations (`fromB` = the engine's asserting `From::from`, `advE` = its
`advance`, `currE` = its `current`). -/

/-- The three-state machine `Dummy` / `Uninit(ring buffer)` /
`Active(calculator)`. -/
inductive BufState (F E : Type) where
  | dummy : BufState F E
  | uninit (rb : Fixed F) : BufState F E
  | active (eng : E) : BufState F E

/-- `__promote_inner`: an `Uninit` ring buffer is decomposed into its raw
buffer and handed to the engine's `From::from`; `Dummy` and `Active` are
returned unchanged.  The engine constructor's assertion failure (a panic,
unreachable when the wrapper was built over a non-empty buffer) is modeled by
falling into the transient `Dummy` state. -/
def BufState.promote_inner {F E : Type} (fromB : List F → Option E) :
    BufState F E → BufState F E
  | .dummy => .dummy
  | .active c => .active c
  | .uninit rb =>
      match fromB rb.into_buffer with
      | some c => .active c
      | none => .dummy

/-- The wrapper's `__from` body: `Uninit(Fixed::from_offset(buffer, 0))`. -/
def BufState.fromBuf {F E : Type} (buffer : List F) : BufState F E :=
  .uninit (Fixed.from_offset buffer 0)

/-- The wrapper's public `From::from`: asserts a non-empty buffer, then
`__from`. -/
def BufState.from? (F E : Type) (buffer : List F) : Option (BufState F E) :=
  if 0 < buffer.length then some (BufState.fromBuf buffer) else none

/-- The wrapper's `__advance`: `Active` delegates to the engine;
`Uninit` feeds the ring buffer with `push_with_flag` and promotes when the
wrap flag fires; `Dummy` ignores the input. -/
def BufState.advanceB {F E : Type} (fromB : List F → Option E)
    (advE : E → F → E) : BufState F E → F → BufState F E
  | .active c, input => .active (advE c input)
  | .uninit rb, input =>
      if (rb.push_with_flag input).1.2 then
        BufState.promote_inner fromB (.uninit (rb.push_with_flag input).2)
      else
        .uninit (rb.push_with_flag input).2
  | .dummy, _ => .dummy

/-- The wrapper's `__is_active`. -/
def BufState.is_active {F E : Type} : BufState F E → Bool
  | .active _ => true
  | _ => false

/-- The wrapper's `__current`: `Some(engine.current())` when `Active`,
`None` otherwise. -/
def BufState.currentB {F E A : Type} (currE : E → A) : BufState F E → Option A
  | .active c => some (currE c)
  | _ => none

/-- The successive in-place writes performed by the uninitialized fill
phase. -/
def overwrite {α : Type} : List α → Nat → List α → List α
  | b, _, [] => b
  | b, i, x :: fs => overwrite (b.set i x) (i + 1) fs

theorem length_overwrite {α : Type} :
    ∀ (fs b : List α) (i : Nat), (overwrite b i fs).length = b.length := by
  intro fs
  induction fs with
  | nil => intro b i; rfl
  | cons x fs ih =>
    intro b i
    rw [overwrite, ih (b.set i x) (i + 1)]
    simp

theorem take_set_succ {α : Type} (b : List α) (i : Nat) (x : α)
    (h : i < b.length) : (b.set i x).take (i + 1) = b.take i ++ [x] := by
  rw [List.set_eq_take_cons_drop x h]
  have hlen : (b.take i).length = i := by
    simp
    omega
  rw [show i + 1 = (b.take i).length + 1 by omega, List.take_append,
    List.take_succ_cons, List.take_zero]

theorem overwrite_full {α : Type} :
    ∀ (fs b : List α) (i : Nat), b.length = i + fs.length →
      overwrite b i fs = b.take i ++ fs := by
  intro fs
  induction fs with
  | nil =>
    intro b i h
    simp only [List.length_nil] at h
    rw [overwrite, List.append_nil]
    rw [List.take_of_length_le (by omega)]
  | cons x fs ih =>
    intro b i h
    simp only [List.length_cons] at h
    rw [overwrite, ih (b.set i x) (i + 1) (by simp; omega)]
    rw [take_set_succ b i x (by omega)]
    simp

theorem overwrite_append {α : Type} :
    ∀ (fs b : List α) (i : Nat) (x : α),
      overwrite b i (fs ++ [x]) = (overwrite b i fs).set (i + fs.length) x := by
  intro fs
  induction fs with
  | nil => intro b i x; simp [overwrite]
  | cons y fs ih =>
    intro b i x
    rw [List.cons_append, overwrite, overwrite, ih (b.set i y) (i + 1) x]
    congr 1
    simp
    omega

/-- `push_with_flag` below the wrap point: flag clear, head advanced. -/
theorem Fixed.push_with_flag_no_wrap {α : Type} (b : Fixed α) (x : α)
    (h : b.head + 1 < b.capacity) :
    b.push_with_flag x
      = ((b.buffer.getD b.head x, false),
          Fixed.mk (b.head + 1) (b.buffer.set b.head x)) := by
  have h0 : ¬ b.capacity = 0 := by omega
  have h1 : ¬ (b.head + 1 ≥ b.capacity) := by omega
  simp [Fixed.push_with_flag, h0, h1]

/-- `push_with_flag` at the wrap point: flag set, head reset to 0. -/
theorem Fixed.push_with_flag_wrap {α : Type} (b : Fixed α) (x : α)
    (h0 : 0 < b.capacity) (h : b.capacity ≤ b.head + 1) :
    b.push_with_flag x
      = ((b.buffer.getD b.head x, true),
          Fixed.mk 0 (b.buffer.set b.head x)) := by
  have h0' : ¬ b.capacity = 0 := by omega
  have h1 : b.head + 1 ≥ b.capacity := by omega
  simp [Fixed.push_with_flag, h0', h1]

/-- The below-capacity uninitialized run: every advance just writes at the
head and moves it forward, never wrapping. -/
theorem uninit_run {F E : Type} (fromB : List F → Option E) (advE : E → F → E) :
    ∀ (fs : List F) (i : Nat) (b : List F), i + fs.length < b.length →
      fs.foldl (BufState.advanceB fromB advE) (BufState.uninit (Fixed.mk i b))
        = BufState.uninit (Fixed.mk (i + fs.length) (overwrite b i fs)) := by
  intro fs
  induction fs with
  | nil =>
    intro i b _
    simp [overwrite]
  | cons x fs ih =>
    intro i b h
    simp only [List.length_cons] at h
    rw [List.foldl_cons]
    have hpwf := Fixed.push_with_flag_no_wrap (Fixed.mk i b) x
      (by simp only [Fixed.capacity]; omega)
    have hstep : BufState.advanceB fromB advE
        (BufState.uninit (Fixed.mk i b)) x
        = BufState.uninit (Fixed.mk (i + 1) (b.set i x)) := by
      simp [BufState.advanceB, hpwf]
    rw [hstep, ih (i + 1) (b.set i x) (by simp; omega), overwrite]
    congr 1
    simp
    omega

/-- The wrapping advance: when the head is at the last slot, the push fires
the wrap flag and the wrapper promotes. -/
theorem wrap_step {F E : Type} (fromB : List F → Option E) (advE : E → F → E)
    (i : Nat) (b : List F) (x : F) (h : b.length = i + 1) :
    BufState.advanceB fromB advE (BufState.uninit (Fixed.mk i b)) x
      = BufState.promote_inner fromB (BufState.uninit (Fixed.mk 0 (b.set i x))) := by
  have hpwf := Fixed.push_with_flag_wrap (Fixed.mk i b) x
    (by simp only [Fixed.capacity]; omega) (by simp only [Fixed.capacity]; omega)
  simp [BufState.advanceB, hpwf]

/-- The active state absorbs all further advances, delegating to the
engine. -/
theorem active_run {F E : Type} (fromB : List F → Option E) (advE : E → F → E) :
    ∀ (fs : List F) (c : E),
      fs.foldl (BufState.advanceB fromB advE) (BufState.active c)
        = BufState.active (fs.foldl advE c) := by
  intro fs
  induction fs with
  | nil => intro c; rfl
  | cons x fs ih =>
    intro c
    rw [List.foldl_cons, List.foldl_cons]
    exact ih (advE c x)

theorem fromBuf_eq {F E : Type} (buffer : List F) :
    (BufState.fromBuf buffer : BufState F E)
      = BufState.uninit (Fixed.mk 0 buffer) := by
  unfold BufState.fromBuf Fixed.from_offset
  by_cases h : buffer.length = 0 <;> simp [h]

/-- **C4.**  For every `Buffered` moving-statistic wrapper (the generated
wrapper state machine is engine-independent; `fromB`/`advE`/`currE` are the
wrapped engine's constructor, `advance` and `current`) built via
`from(buffer)` over a buffer of capacity `C ≥ 1` whose engine constructor
succeeds on non-empty windows:

* for the first `C - 1` (indeed, any fewer than `C`) `advance` calls,
  `is_active()` is `false` and `current()` is `None`;
* on the `C`-th `advance` the wrapper becomes `Active`, holding precisely
  the engine constructed from the `C` frames fed, and `current()` flips to
  `Some` of that engine's aggregate on that exact call;
* absent a reset, the transition is irreversible: with `C` or more frames
  fed, the wrapper is (and stays) active. -/
theorem buffered_activation (F E A : Type) (fromB : List F → Option E)
    (advE : E → F → E) (currE : E → A)
    (buffer feed : List F) (C : Nat)
    (hC : buffer.length = C) (h1 : 1 ≤ C)
    (hFrom : ∀ l : List F, l.length = C → (fromB l).isSome = true) :
    (feed.length < C →
      (feed.foldl (BufState.advanceB fromB advE)
        (BufState.fromBuf buffer)).is_active = false ∧
      (feed.foldl (BufState.advanceB fromB advE)
        (BufState.fromBuf buffer)).currentB currE = none) ∧
    (feed.length = C →
      ∃ eng, fromB feed = some eng ∧
        feed.foldl (BufState.advanceB fromB advE) (BufState.fromBuf buffer)
          = BufState.active eng ∧
        (feed.foldl (BufState.advanceB fromB advE)
          (BufState.fromBuf buffer)).is_active = true ∧
        (feed.foldl (BufState.advanceB fromB advE)
          (BufState.fromBuf buffer)).currentB currE = some (currE eng)) ∧
    (C ≤ feed.length →
      (feed.foldl (BufState.advanceB fromB advE)
        (BufState.fromBuf buffer)).is_active = true) := by
  rw [fromBuf_eq]
  -- exactly C frames land precisely in the engine construction
  have hAtC : ∀ (fs : List F), fs.length = C →
      ∃ eng, fromB fs = some eng ∧
        fs.foldl (BufState.advanceB fromB advE)
          (BufState.uninit (Fixed.mk 0 buffer)) = BufState.active eng := by
    intro fs hfs
    rcases List.eq_nil_or_concat fs with rfl | ⟨gs, x, rfl⟩
    · simp at hfs
      omega
    · rw [List.concat_eq_append] at hfs ⊢
      have hgs : gs.length = C - 1 := by
        simp at hfs
        omega
      have hrun := uninit_run fromB advE gs 0 buffer (by omega)
      rw [List.foldl_append, hrun]
      simp only [List.foldl_cons, List.foldl_nil]
      have hwrap := wrap_step fromB advE (0 + gs.length)
        (overwrite buffer 0 gs) x (by rw [length_overwrite]; omega)
      rw [hwrap]
      have hbuf : (overwrite buffer 0 gs).set (0 + gs.length) x
          = gs ++ [x] := by
        rw [show (overwrite buffer 0 gs).set (0 + gs.length) x
            = overwrite buffer 0 (gs ++ [x]) from (overwrite_append gs buffer 0 x).symm]
        rw [overwrite_full (gs ++ [x]) buffer 0 (by simp; omega)]
        simp
      rw [hbuf]
      obtain ⟨eng, heng⟩ := Option.isSome_iff_exists.1 (hFrom (gs ++ [x]) hfs)
      refine ⟨eng, heng, ?_⟩
      unfold BufState.promote_inner Fixed.into_buffer
      simp only
      rw [heng]
  refine ⟨?_, ?_, ?_⟩
  · intro hlt
    rw [uninit_run fromB advE feed 0 buffer (by omega)]
    exact ⟨rfl, rfl⟩
  · intro heq
    obtain ⟨eng, heng, hact⟩ := hAtC feed heq
    exact ⟨eng, heng, hact, by rw [hact]; rfl, by rw [hact]; rfl⟩
  · intro hge
    obtain ⟨eng, -, hact⟩ := hAtC (feed.take C) (by simp; omega)
    rw [← List.take_append_drop C feed, List.foldl_append, hact, active_run]
    rfl

/-- Closed witness for C4: the Buffered moving-minimum over a window of
capacity 2, fed exactly the two frames `[1]`, `[0]`. -/
theorem buffered_activation_witness :
    (([[9], [9]] : List (List Int)).length = 2) ∧
    ((([[1], [0]] : List (List Int)).length < 2 →
      (([[1], [0]] : List (List Int)).foldl
        (BufState.advanceB (ExtremaInner.from? false)
          (fun e fr => e.__advance false fr))
        (BufState.fromBuf [[9], [9]])).is_active = false ∧
      (([[1], [0]] : List (List Int)).foldl
        (BufState.advanceB (ExtremaInner.from? false)
          (fun e fr => e.__advance false fr))
        (BufState.fromBuf [[9], [9]])).currentB ExtremaInner.__current = none) ∧
    (([[1], [0]] : List (List Int)).length = 2 →
      ∃ eng, ExtremaInner.from? false [[1], [0]] = some eng ∧
        ([[1], [0]] : List (List Int)).foldl
          (BufState.advanceB (ExtremaInner.from? false)
            (fun e fr => e.__advance false fr))
          (BufState.fromBuf [[9], [9]]) = BufState.active eng ∧
        (([[1], [0]] : List (List Int)).foldl
          (BufState.advanceB (ExtremaInner.from? false)
            (fun e fr => e.__advance false fr))
          (BufState.fromBuf [[9], [9]])).is_active = true ∧
        (([[1], [0]] : List (List Int)).foldl
          (BufState.advanceB (ExtremaInner.from? false)
            (fun e fr => e.__advance false fr))
          (BufState.fromBuf [[9], [9]])).currentB ExtremaInner.__current
          = some (ExtremaInner.__current eng)) ∧
    (2 ≤ ([[1], [0]] : List (List Int)).length →
      (([[1], [0]] : List (List Int)).foldl
        (BufState.advanceB (ExtremaInner.from? false)
          (fun e fr => e.__advance false fr))
        (BufState.fromBuf [[9], [9]])).is_active = true)) :=
  ⟨by decide,
    buffered_activation (List Int) ExtremaInner (List Int)
      (ExtremaInner.from? false) (fun e fr => e.__advance false fr)
      ExtremaInner.__current [[9], [9]] [[1], [0]] 2 (by decide) (by decide)
      (by
        intro l hl
        unfold ExtremaInner.from?
        rw [if_pos (by omega)]
        rfl)⟩

/-- **C9.**  Every moving-statistic constructor — extrema or summage, via
`from` or `from_empty`, and the `Buffered` wrapper's `from` — fails fast
(the construction-time assertion, modeled as `none`) exactly on a
zero-length buffer, and never otherwise: construction succeeds iff the
buffer is non-empty. -/
theorem construction_requires_nonempty :
    (∀ (MAX : Bool) (b : List (List Int)),
      (ExtremaInner.from? MAX b).isSome = true ↔ b ≠ []) ∧
    (∀ (N : Nat) (b : List (List Int)),
      (ExtremaInner.fromEmpty? N b).isSome = true ↔ b ≠ []) ∧
    (∀ (N : Nat) (POW2 : Bool) (b : List (List ℚ)),
      (SummageInner.from? N POW2 b).isSome = true ↔ b ≠ []) ∧
    (∀ (N : Nat) (b : List (List ℚ)),
      (SummageInner.fromEmpty? N b).isSome = true ↔ b ≠ []) ∧
    (∀ (F E : Type) (b : List F),
      (BufState.from? F E b).isSome = true ↔ b ≠ []) := by
  refine ⟨?_, ?_, ?_, ?_, ?_⟩
  · intro MAX b
    unfold ExtremaInner.from?
    by_cases h : 0 < b.length
    · rw [if_pos h]
      simp [List.length_pos.1 h]
    · rw [if_neg h]
      have hb : b = [] := List.length_eq_zero.1 (by omega)
      subst hb
      simp
  · intro N b
    unfold ExtremaInner.fromEmpty?
    by_cases h : 0 < b.length
    · rw [if_pos h]
      simp [List.length_pos.1 h]
    · rw [if_neg h]
      have hb : b = [] := List.length_eq_zero.1 (by omega)
      subst hb
      simp
  · intro N POW2 b
    unfold SummageInner.from?
    by_cases h : 0 < b.length
    · rw [if_pos h]
      simp [List.length_pos.1 h]
    · rw [if_neg h]
      have hb : b = [] := List.length_eq_zero.1 (by omega)
      subst hb
      simp
  · intro N b
    unfold SummageInner.fromEmpty?
    by_cases h : 0 < b.length
    · rw [if_pos h]
      simp [List.length_pos.1 h]
    · rw [if_neg h]
      have hb : b = [] := List.length_eq_zero.1 (by omega)
      subst hb
      simp
  · intro F E b
    unfold BufState.from?
    by_cases h : 0 < b.length
    · rw [if_pos h]
      simp [List.length_pos.1 h]
    · rw [if_neg h]
      have hb : b = [] := List.length_eq_zero.1 (by omega)
      subst hb
      simp

end Sampara
